import Mathlib

/-!
Verification development for the `IconPath` path-geometry engine of the
`@neptune3d/icon-font` repository.

The TypeScript source stores path commands as a tagged union
(`IconPathCommand`) and manipulates them through a builder class.  We embed
the command list and every operation the claims touch as pure Lean
functions.  JavaScript numbers are modelled by an arbitrary linear ordered
field `K` (instantiated with `ℚ` for concrete evaluation and with `ℝ` for
the trigonometric arc converter); the IEEE `Infinity` sentinels used by the
bounding-box routine are modelled with `Option` (`none` encodes the
`±Infinity` initial sentinel of the fold).
-/

set_option linter.unusedVariables false
set_option linter.unusedSectionVars false

namespace IconFont

/-- A 2D point, mirroring the source's `Point` type (`{x, y}`). -/
structure Pt (K : Type) where
  x : K
  y : K
  deriving DecidableEq, Repr

/-- The `IconPathCommand` tagged union from `types.ts`:
`M`, `L`, `H`, `V`, `Q`, `C`, `S` (smooth cubic), `T` (smooth quadratic), `Z`. -/
inductive Cmd (K : Type) where
  | M (x y : K)
  | L (x y : K)
  | H (x : K)
  | V (y : K)
  | Q (x1 y1 x y : K)
  | C (x1 y1 x2 y2 x y : K)
  | S (x2 y2 x y : K)
  | T (x y : K)
  | Z
  deriving DecidableEq, Repr

/-- The kind tag of a command (the `type` string field in the source). -/
inductive CmdTag where
  | M | L | H | V | Q | C | S | T | Z
  deriving DecidableEq, Repr

variable {K : Type} [LinearOrderedField K]

/-- Tag of a command. -/
def Cmd.tag : Cmd K → CmdTag
  | .M _ _ => .M
  | .L _ _ => .L
  | .H _ => .H
  | .V _ => .V
  | .Q _ _ _ _ => .Q
  | .C _ _ _ _ _ _ => .C
  | .S _ _ _ _ => .S
  | .T _ _ => .T
  | .Z => .Z

/-- `cmd.type === "M"` test used by `splitSubpaths`. -/
def Cmd.isM : Cmd K → Bool
  | .M _ _ => true
  | _ => false

/-- `cmd.type === "Z"` test used by `splitSubpaths` and `reverseSubpath`. -/
def Cmd.isZ : Cmd K → Bool
  | .Z => true
  | _ => false

/-- A canonical (OpenType) command: one of `M`/`L`/`Q`/`C`/`Z`
(the source's `OpenTypeCommand` type). -/
def Cmd.canonical : Cmd K → Prop
  | .M _ _ => True
  | .L _ _ => True
  | .Q _ _ _ _ => True
  | .C _ _ _ _ _ _ => True
  | .Z => True
  | _ => False

instance (c : Cmd K) : Decidable c.canonical := by
  cases c <;> simp [Cmd.canonical] <;> infer_instance

/-- `_mapCoords` applied to one command: every coordinate-bearing field is
rewritten through `fn`; `H` passes `(x, 0)` and keeps only the returned `x`,
`V` passes `(0, y)` and keeps only the returned `y`; `Z` is untouched. -/
def mapCoordsCmd (fn : K → K → Pt K) : Cmd K → Cmd K
  | .M x y => let p := fn x y; .M p.x p.y
  | .L x y => let p := fn x y; .L p.x p.y
  | .H x => let p := fn x 0; .H p.x
  | .V y => let p := fn 0 y; .V p.y
  | .Q x1 y1 x y =>
      let c := fn x1 y1
      let p := fn x y
      .Q c.x c.y p.x p.y
  | .C x1 y1 x2 y2 x y =>
      let c1 := fn x1 y1
      let c2 := fn x2 y2
      let p := fn x y
      .C c1.x c1.y c2.x c2.y p.x p.y
  | .S x2 y2 x y =>
      let c2 := fn x2 y2
      let p := fn x y
      .S c2.x c2.y p.x p.y
  | .T x y => let p := fn x y; .T p.x p.y
  | .Z => .Z

/-- `_mapCoords`: the whole command list is replaced by a coordinate-mapped
copy. -/
def mapCoords (fn : K → K → Pt K) (cmds : List (Cmd K)) : List (Cmd K) :=
  cmds.map (mapCoordsCmd fn)

/-- `scale(sx, sy = sx, cx = width/2, cy = height/2)`:
`p' = (p - pivot) * (sx, sy) + pivot`.  The source's default arguments are
supplied explicitly by callers here. -/
def scale (sx sy cx cy : K) (cmds : List (Cmd K)) : List (Cmd K) :=
  mapCoords (fun x y => ⟨(x - cx) * sx + cx, (y - cy) * sy + cy⟩) cmds

/-- `translate(dx, dy)`: uniform additive shift of every coordinate. -/
def translate (dx dy : K) (cmds : List (Cmd K)) : List (Cmd K) :=
  mapCoords (fun x y => ⟨x + dx, y + dy⟩) cmds

/-- `flipX(width = this.width)`: `x ↦ width - x`. -/
def flipX (width : K) (cmds : List (Cmd K)) : List (Cmd K) :=
  mapCoords (fun x y => ⟨width - x, y⟩) cmds

/-- `flipY(height = this.height)`: `y ↦ height - y`. -/
def flipY (height : K) (cmds : List (Cmd K)) : List (Cmd K) :=
  mapCoords (fun x y => ⟨x, height - y⟩) cmds

/-- The x-like coordinate fields of one command, in the order collected by
`getCommandBounds` (`x`, then `x1`, then `x2`). -/
def Cmd.xs : Cmd K → List K
  | .M x _ => [x]
  | .L x _ => [x]
  | .H x => [x]
  | .V _ => []
  | .Q x1 _ x _ => [x, x1]
  | .C x1 _ x2 _ x _ => [x, x1, x2]
  | .S x2 _ x _ => [x, x2]
  | .T x _ => [x]
  | .Z => []

/-- The y-like coordinate fields of one command, in the order collected by
`getCommandBounds` (`y`, then `y1`, then `y2`). -/
def Cmd.ys : Cmd K → List K
  | .M _ y => [y]
  | .L _ y => [y]
  | .H _ => []
  | .V y => [y]
  | .Q _ y1 _ y => [y, y1]
  | .C _ y1 _ y2 _ y => [y, y1, y2]
  | .S _ y2 _ y => [y, y2]
  | .T _ y => [y]
  | .Z => []

/-- Running minimum over a list; `none` encodes the source's `+Infinity`
initial sentinel (no value seen yet). -/
def runMin (l : List K) : Option K :=
  l.foldl (fun acc v => some (match acc with | none => v | some a => min a v)) none

/-- Running maximum over a list; `none` encodes the source's `-Infinity`
initial sentinel. -/
def runMax (l : List K) : Option K :=
  l.foldl (fun acc v => some (match acc with | none => v | some a => max a v)) none

/-- The bounds record returned by `getCommandBounds`; `none` in a field
models the untouched `±Infinity` sentinel of an empty coordinate set. -/
structure Bounds (K : Type) where
  minX : Option K
  minY : Option K
  maxX : Option K
  maxY : Option K
  deriving DecidableEq, Repr

/-- `getCommandBounds()`: one pass collecting every `x`/`x1`/`x2` and
`y`/`y1`/`y2` field into running min/max. -/
def getCommandBounds (cmds : List (Cmd K)) : Bounds K :=
  { minX := runMin (cmds.map Cmd.xs).flatten
    minY := runMin (cmds.map Cmd.ys).flatten
    maxX := runMax (cmds.map Cmd.xs).flatten
    maxY := runMax (cmds.map Cmd.ys).flatten }

/-- `center(minX = 0, minY = 0, maxX = width, maxY = height)`: translate so
the command bounding box is centered in the target box.  When an axis has no
coordinates at all the source's IEEE arithmetic produces a `NaN` offset that
is never applied to any field (no field on that axis exists); this vacuous
case is modelled by a `0` offset. -/
def center (tminX tminY tmaxX tmaxY : K) (cmds : List (Cmd K)) : List (Cmd K) :=
  let b := getCommandBounds cmds
  let dx := match b.minX, b.maxX with
    | some a, some d => tminX + ((tmaxX - tminX) - (d - a)) / 2 - a
    | _, _ => 0
  let dy := match b.minY, b.maxY with
    | some c, some e => tminY + ((tmaxY - tminY) - (e - c)) / 2 - c
    | _, _ => 0
  translate dx dy cmds

/-- `fit(preserveAspect = true)`: center into the canvas, then scale the
shape onto the full canvas box; early return when either shape dimension is
zero.  A path missing all coordinates on one axis (where the source's IEEE
arithmetic would scale by `±0`/`±∞`) is modelled as the centered list; no
claim exercises that degenerate case. -/
def fit (w h : K) (preserveAspect : Bool) (cmds : List (Cmd K)) : List (Cmd K) :=
  let centered := center 0 0 w h cmds
  let b := getCommandBounds centered
  match b.minX, b.maxX, b.minY, b.maxY with
  | some a, some d, some c, some e =>
    let shapeWidth := d - a
    let shapeHeight := e - c
    if shapeWidth = 0 ∨ shapeHeight = 0 then centered
    else
      let sx := w / shapeWidth
      let sy := h / shapeHeight
      if preserveAspect then
        let s := min sx sy
        scale s s (w / 2) (h / 2) centered
      else
        scale sx sy (w / 2) (h / 2) centered
  | _, _, _, _ => centered

/-! ### Canonicalizer (`getOpenTypeCommands`) -/

/-- The canonicalizer's loop state: current point `(cx, cy)` and the last
quadratic / cubic control points (`null` modelled by `none`). -/
structure CState (K : Type) where
  cx : K
  cy : K
  lqx : Option K
  lqy : Option K
  lcx : Option K
  lcy : Option K
  deriving DecidableEq, Repr

/-- The control-point reflection used for `T` and `S`:
`lastCtrl !== null ? 2 * current - lastCtrl : current`. -/
def reflectCtrl (lastCtrl : Option K) (current : K) : K :=
  match lastCtrl with
  | some q => 2 * current - q
  | none => current

/-- The single command pushed by one iteration of `getOpenTypeCommands`:
`H`/`V` become `L` using the tracked other axis, `T` becomes `Q` with the
reflected (or current-point) control, `S` becomes `C` analogously. -/
def canonEmit (st : CState K) : Cmd K → Cmd K
  | .M x y => .M x y
  | .L x y => .L x y
  | .H x => .L x st.cy
  | .V y => .L st.cx y
  | .Q x1 y1 x y => .Q x1 y1 x y
  | .T x y => .Q (reflectCtrl st.lqx st.cx) (reflectCtrl st.lqy st.cy) x y
  | .C x1 y1 x2 y2 x y => .C x1 y1 x2 y2 x y
  | .S x2 y2 x y => .C (reflectCtrl st.lcx st.cx) (reflectCtrl st.lcy st.cy) x2 y2 x y
  | .Z => .Z

/-- The state update of one iteration of `getOpenTypeCommands`. -/
def canonStep (st : CState K) : Cmd K → CState K
  | .M x y => ⟨x, y, none, none, none, none⟩
  | .L x y => ⟨x, y, none, none, none, none⟩
  | .H x => ⟨x, st.cy, none, none, none, none⟩
  | .V y => ⟨st.cx, y, none, none, none, none⟩
  | .Q x1 y1 x y => ⟨x, y, some x1, some y1, none, none⟩
  | .T x y =>
      ⟨x, y, some (reflectCtrl st.lqx st.cx), some (reflectCtrl st.lqy st.cy), none, none⟩
  | .C _ _ x2 y2 x y => ⟨x, y, none, none, some x2, some y2⟩
  | .S x2 y2 x y => ⟨x, y, none, none, some x2, some y2⟩
  | .Z => ⟨st.cx, st.cy, none, none, none, none⟩

/-- The canonicalizer loop: one output command per input command. -/
def canonGo (st : CState K) : List (Cmd K) → List (Cmd K)
  | [] => []
  | c :: rest => canonEmit st c :: canonGo (canonStep st c) rest

/-- `getOpenTypeCommands()`: rewrite `S`/`T`/`H`/`V` into explicit
`L`/`Q`/`C`, leaving only `M`/`L`/`Q`/`C`/`Z`. -/
def getOpenTypeCommands (cmds : List (Cmd K)) : List (Cmd K) :=
  canonGo ⟨0, 0, none, none, none, none⟩ cmds

/-- The canonicalizer state after a prefix of commands (used to state what
the canonicalizer does at a given position). -/
def canonState (cmds : List (Cmd K)) : CState K :=
  cmds.foldl canonStep ⟨0, 0, none, none, none, none⟩

/-! ### Subpath splitting (`splitSubpaths`) -/

/-- `current[current.length - 1]?.type === "Z"`. -/
def endsWithZ (l : List (Cmd K)) : Bool :=
  match l.getLast? with
  | some .Z => true
  | _ => false

/-- The `splitSubpaths` loop: a new `M` (with a nonempty current run not
ended by `Z`) flushes the current run; every `Z` flushes the run including
the `Z`; a trailing nonempty run is flushed at the end. -/
def splitLoop : List (Cmd K) → List (List (Cmd K)) → List (Cmd K) → List (List (Cmd K))
  | [], parts, current => if current = [] then parts else parts ++ [current]
  | c :: rest, parts, current =>
    let fl := if c.isM ∧ current ≠ [] ∧ ¬ endsWithZ current = true
      then (parts ++ [current], ([] : List (Cmd K))) else (parts, current)
    let cur := fl.2 ++ [c]
    if c.isZ then splitLoop rest (fl.1 ++ [cur]) [] else splitLoop rest fl.1 cur

/-- `splitSubpaths(commands)`. -/
def splitSubpaths (cmds : List (Cmd K)) : List (List (Cmd K)) :=
  splitLoop cmds [] []

/-! ### Signed area in font space (`getSignedAreaFontSpace`) -/

/-- Cross term of the shoelace sum: `a.x * b.y - b.x * a.y`. -/
def cross (a b : Pt K) : K := a.x * b.y - b.x * a.y

/-- The cyclic shoelace sum `Σᵢ cross ptsᵢ pts₍ᵢ₊₁ mod n₎`; pairing each
point with its cyclic successor is expressed with `List.rotate`. -/
def shoelace (pts : List (Pt K)) : K :=
  (List.zipWith cross pts (pts.rotate 1)).sum

/-- The endpoint collection of `getSignedAreaFontSpace`: `M`/`L`/`Q`/`C`
push their endpoint with `y` flipped against the path height; `Z` pushes
nothing.  The source types this function at `OpenTypeCommand`, so the
remaining variants cannot occur there; they push nothing. -/
def ptsOf (h : K) : List (Cmd K) → List (Pt K)
  | [] => []
  | c :: rest =>
    match c with
    | .M x y => ⟨x, h - y⟩ :: ptsOf h rest
    | .L x y => ⟨x, h - y⟩ :: ptsOf h rest
    | .Q _ _ x y => ⟨x, h - y⟩ :: ptsOf h rest
    | .C _ _ _ _ x y => ⟨x, h - y⟩ :: ptsOf h rest
    | _ => ptsOf h rest

/-- `getSignedAreaFontSpace(sub)`: half the shoelace sum over the flipped
endpoint polygon; negative means clockwise in font space. -/
def getSignedAreaFontSpace (h : K) (sub : List (Cmd K)) : K :=
  shoelace (ptsOf h sub) / 2

/-! ### Subpath reversal (`reverseSubpath`) -/

/-- The endpoint `x` field of a command if present (`(cmd as any)?.x`). -/
def Cmd.xOf : Cmd K → Option K
  | .M x _ => some x
  | .L x _ => some x
  | .H x => some x
  | .V _ => none
  | .Q _ _ x _ => some x
  | .C _ _ _ _ x _ => some x
  | .S _ _ x _ => some x
  | .T x _ => some x
  | .Z => none

/-- The endpoint `y` field of a command if present (`(cmd as any)?.y`). -/
def Cmd.yOf : Cmd K → Option K
  | .M _ y => some y
  | .L _ y => some y
  | .H _ => none
  | .V y => some y
  | .Q _ _ _ y => some y
  | .C _ _ _ _ _ y => some y
  | .S _ _ _ y => some y
  | .T _ y => some y
  | .Z => none

/-- The `endpoints[]` array of `reverseSubpath`: the absolute endpoint of
each command given the running point `(cx, cy)`; `Z` carries no endpoint.
The source's switch has no case for `S`/`T`, so they fall through and carry
no endpoint either. -/
def epGo (cx cy : K) : List (Cmd K) → List (Option (Pt K))
  | [] => []
  | c :: rest =>
    match c with
    | .M x y => some ⟨x, y⟩ :: epGo x y rest
    | .L x y => some ⟨x, y⟩ :: epGo x y rest
    | .H x => some ⟨x, cy⟩ :: epGo x cy rest
    | .V y => some ⟨cx, y⟩ :: epGo cx y rest
    | .Q _ _ x y => some ⟨x, y⟩ :: epGo x y rest
    | .C _ _ _ _ x y => some ⟨x, y⟩ :: epGo x y rest
    | _ => none :: epGo cx cy rest

/-- `(out[out.length - 1] as any)?.x ?? dfl`. -/
def outLastX (out : List (Cmd K)) (dfl : K) : K :=
  match out.getLast? with
  | some c => (c.xOf).getD dfl
  | none => dfl

/-- `(out[out.length - 1] as any)?.y ?? dfl`. -/
def outLastY (out : List (Cmd K)) (dfl : K) : K :=
  match out.getLast? with
  | some c => (c.yOf).getD dfl
  | none => dfl

/-- The backward walk of `reverseSubpath`, processing the command/endpoint
pairs in reverse order; `prev` is the nearest earlier endpoint
(`prevEndpoint(i)`), falling back to the subpath's first vertex.  `M` and
`Z` emit nothing (and `S`/`T` have no case in the source's switch). -/
def revWalk (fb : Pt K) : List (Cmd K × Option (Pt K)) → List (Cmd K) → List (Cmd K)
  | [], out => out
  | (c, _) :: rest, out =>
    let prev := (rest.findSome? Prod.snd).getD fb
    match c with
    | .L _ _ => revWalk fb rest (out ++ [.L prev.x prev.y])
    | .H _ => revWalk fb rest (out ++ [.L prev.x (outLastY out prev.y)])
    | .V _ => revWalk fb rest (out ++ [.L (outLastX out prev.x) prev.y])
    | .Q x1 y1 _ _ => revWalk fb rest (out ++ [.Q x1 y1 prev.x prev.y])
    | .C x1 y1 x2 y2 _ _ => revWalk fb rest (out ++ [.C x2 y2 x1 y1 prev.x prev.y])
    | _ => revWalk fb rest out

/-- `reverseSubpath(sub)`: start a new `M` at the last vertex, walk the
commands backwards retargeting each to the previous endpoint (cubics swap
their control points), and close with `Z` iff the original contained one.
An endpoint-free subpath is returned as a copy. -/
def reverseSubpath (sub : List (Cmd K)) : List (Cmd K) :=
  let eps := epGo 0 0 sub
  let verts := eps.filterMap id
  match verts.head?, verts.getLast? with
  | some firstv, some lastv =>
      let walked := revWalk firstv ((sub.zip eps).reverse) [.M lastv.x lastv.y]
      if sub.any Cmd.isZ then walked ++ [.Z] else walked
  | _, _ => sub

/-! ### Winding normalization (`getNormalizedWindingForFont`) -/

/-- The loop body of `getNormalizedWindingForFont` for the subpath at index
`idx`: the required winding is clockwise exactly for the first subpath when
`outerShouldBeCW`; a subpath whose observed winding (sign of the signed
font-space area) mismatches it is reversed (`needsReverse = shouldBeCW ?
!isCW : isCW`). -/
def normalizeOne (h : K) (outerShouldBeCW : Bool) (idx : ℕ) (sub : List (Cmd K)) :
    List (Cmd K) :=
  let area := getSignedAreaFontSpace h sub
  if outerShouldBeCW ∧ idx = 0 then
    if area < 0 then sub else reverseSubpath sub
  else
    if area < 0 then reverseSubpath sub else sub

/-- The `for idx` loop of `getNormalizedWindingForFont`: normalize each
subpath at its index and concatenate the results in order. -/
def normLoop (h : K) (outerShouldBeCW : Bool) (idx : ℕ) :
    List (List (Cmd K)) → List (Cmd K)
  | [] => []
  | sub :: rest => normalizeOne h outerShouldBeCW idx sub ++ normLoop h outerShouldBeCW (idx + 1) rest

/-- The same loop keeping the per-subpath outputs separate (the `for` loop
emits the subpaths in order, so its output is the concatenation of these
blocks). -/
def normBlocks (h : K) (outerShouldBeCW : Bool) : ℕ → List (List (Cmd K)) → List (List (Cmd K))
  | _, [] => []
  | idx, sub :: rest =>
    normalizeOne h outerShouldBeCW idx sub :: normBlocks h outerShouldBeCW (idx + 1) rest

/-- `getNormalizedWindingForFont(outerShouldBeCW)`: canonicalize, split
into subpaths, reverse each subpath whose winding mismatches its required
winding, and concatenate. -/
def getNormalizedWindingForFont (h : K) (cmds : List (Cmd K)) (outerShouldBeCW : Bool) :
    List (Cmd K) :=
  normLoop h outerShouldBeCW 0 (splitSubpaths (getOpenTypeCommands cmds))

/-! ### Font-space projection (`toOpenTypePath`) -/

/-- `toOpenTypePath(ascender, descender)` (the direct linear-map variant
that `extends Path`): normalize winding (outer clockwise), scale
design-space `x`/`y` by `(ascender - descender)/width` resp. `/height`, and
flip `y` into font space as `fontY = ascender - y * factorY`.  The emitted
list models the sequence of `moveTo`/`lineTo`/`quadraticCurveTo`/`curveTo`/
`close` calls issued to the external opentype.js `Path` (reusing the `Cmd`
constructors `M`/`L`/`Q`/`C`/`Z` for the draw instructions).  Normalized
commands are canonical, so no other constructor reaches the map; any such
command is emitted unchanged. -/
def toOpenTypePath (w h ascender descender : K) (cmds : List (Cmd K)) : List (Cmd K) :=
  let metricsHeight := ascender - descender
  let factorX := metricsHeight / w
  let factorY := metricsHeight / h
  (getNormalizedWindingForFont h cmds true).map (fun cmd =>
    match cmd with
    | .Z => .Z
    | .M x y => .M (x * factorX) (ascender - y * factorY)
    | .L x y => .L (x * factorX) (ascender - y * factorY)
    | .Q x1 y1 x y =>
        .Q (x1 * factorX) (ascender - y1 * factorY) (x * factorX) (ascender - y * factorY)
    | .C x1 y1 x2 y2 x y =>
        .C (x1 * factorX) (ascender - y1 * factorY) (x2 * factorX) (ascender - y2 * factorY)
          (x * factorX) (ascender - y * factorY)
    | c => c)

/-- Modelled from the spec: `getBoundingBox()` of the external opentype.js
`Path` (an out-of-scope collaborator).  For draw sequences consisting of
moves and lines (the only case any claim evaluates) the tight box is the
min/max over the endpoint coordinates; we take min/max over all coordinate
fields, which coincides on such paths.  opentype.js returns a zero box for
an empty path, modelled by the `0` defaults. -/
def otBoundingBox (cmds : List (Cmd K)) : K × K × K × K :=
  ((runMin (cmds.map Cmd.xs).flatten).getD 0, (runMin (cmds.map Cmd.ys).flatten).getD 0,
    (runMax (cmds.map Cmd.xs).flatten).getD 0, (runMax (cmds.map Cmd.ys).flatten).getD 0)

/-! ### Rectangle helper (`rect`, `corner`) -/

/-- A corner configuration (`Corner` in `types.ts`). -/
inductive Corner (K : Type) where
  | sharp
  | rounded (rx ry : K)
  | chamfer (rx ry : K)
  deriving DecidableEq, Repr

/-- Which rectangle corner is being drawn. -/
inductive Side where
  | tl | tr | br | bl
  deriving DecidableEq, Repr

/-- `corner(side, x, y, corner)`: the commands appended for one corner
(rounded: inset line plus quadratic; chamfer: two lines; sharp: one line). -/
def cornerCmds (side : Side) (x y : K) (corner : Corner K) : List (Cmd K) :=
  match corner with
  | .rounded rx ry =>
    match side with
    | .tr => [.L (x - rx) y, .Q x y x (y + ry)]
    | .br => [.L x (y - ry), .Q x y (x - rx) y]
    | .bl => [.L (x + rx) y, .Q x y x (y - ry)]
    | .tl => [.L x (y + ry), .Q x y (x + rx) y]
  | .chamfer rx ry =>
    match side with
    | .tr => [.L (x - rx) y, .L x (y + ry)]
    | .br => [.L x (y - ry), .L (x - rx) y]
    | .bl => [.L (x + rx) y, .L x (y - ry)]
    | .tl => [.L x (y + ry), .L (x + rx) y]
  | .sharp => [.L x y]

/-- The `Rect` configuration record (optional radii and per-corner
overrides). -/
structure RectCfg (K : Type) where
  x : K
  y : K
  width : K
  height : K
  rx : Option K := none
  ry : Option K := none
  tl : Option (Corner K) := none
  tr : Option (Corner K) := none
  br : Option (Corner K) := none
  bl : Option (Corner K) := none

/-- `rect(config)`: append a rectangular subpath; global radii are clamped
to half the dimensions, explicit per-corner config wins, zero radii give
sharp corners. -/
def rect (cfg : RectCfg K) (cmds : List (Cmd K)) : List (Cmd K) :=
  let rx0 := cfg.rx.getD 0
  let ry0 := cfg.ry.getD rx0
  let rx := min rx0 (cfg.width / 2)
  let ry := min ry0 (cfg.height / 2)
  let resolveCorner : Option (Corner K) → Corner K := fun c =>
    match c with
    | some c => c
    | none => if rx = 0 ∧ ry = 0 then .sharp else .rounded rx ry
  let tl := resolveCorner cfg.tl
  let tr := resolveCorner cfg.tr
  let br := resolveCorner cfg.br
  let bl := resolveCorner cfg.bl
  let start : Cmd K :=
    match tl with
    | .rounded rx _ => .M (cfg.x + rx) cfg.y
    | .chamfer rx _ => .M (cfg.x + rx) cfg.y
    | .sharp => .M cfg.x cfg.y
  cmds ++ [start] ++ cornerCmds .tr (cfg.x + cfg.width) cfg.y tr
    ++ cornerCmds .br (cfg.x + cfg.width) (cfg.y + cfg.height) br
    ++ cornerCmds .bl cfg.x (cfg.y + cfg.height) bl
    ++ cornerCmds .tl cfg.x cfg.y tl
    ++ [.Z]

/-! ### Current point (`getCurrentPoint`) -/

/-- The loop state of `getCurrentPoint`: position and active subpath start. -/
structure PenState (K : Type) where
  x : K
  y : K
  sx : K
  sy : K
  deriving DecidableEq, Repr

/-- One step of `getCurrentPoint`'s replay: `M` sets position and subpath
start, endpoint commands set position, `H`/`V` one axis, `Z` resets to the
subpath start. -/
def penStep (st : PenState K) : Cmd K → PenState K
  | .M x y => ⟨x, y, x, y⟩
  | .L x y => ⟨x, y, st.sx, st.sy⟩
  | .T x y => ⟨x, y, st.sx, st.sy⟩
  | .H x => ⟨x, st.y, st.sx, st.sy⟩
  | .V y => ⟨st.x, y, st.sx, st.sy⟩
  | .Q _ _ x y => ⟨x, y, st.sx, st.sy⟩
  | .C _ _ _ _ x y => ⟨x, y, st.sx, st.sy⟩
  | .S _ _ x y => ⟨x, y, st.sx, st.sy⟩
  | .Z => ⟨st.sx, st.sy, st.sx, st.sy⟩

/-- `getCurrentPoint()`: replay the command list from the origin (an empty
path's current point is `(0, 0)`). -/
def getCurrentPoint (cmds : List (Cmd K)) : Pt K :=
  let st := cmds.foldl penStep ⟨0, 0, 0, 0⟩
  ⟨st.x, st.y⟩

/-! ### String-based builder operations (`ms`, `ls`, `qs`, `cs`, `ts`, `ss`, `as`)

The numeric parsing itself is done by the JavaScript builtins
`parseFloat`/`parseInt`, which are external to the repository; they are
passed in as oracles `pf`/`pi` returning `none` for `NaN`.  Errors are
modelled with `Except`; an error return leaves the command list untouched
by construction, mirroring the source, which only pushes a command after
all validation has passed. -/

/-- `Except.error` test. -/
def isErr {α : Type} (r : Except String α) : Bool :=
  match r with
  | .error _ => true
  | .ok _ => false

/-- Modelled from the spec: `String.prototype.trim` (a JavaScript builtin,
external to the repository), on the string's character list: strip leading
and trailing whitespace. -/
def charTrim (l : List Char) : List Char :=
  ((l.dropWhile Char.isWhitespace).reverse.dropWhile Char.isWhitespace).reverse

/-- Helper for `splitOnChar`: accumulate the current field (reversed). -/
def splitOnCharAux (sep : Char) : List Char → List Char → List (List Char)
  | [], cur => [cur.reverse]
  | c :: rest, cur =>
    if c = sep then cur.reverse :: splitOnCharAux sep rest []
    else splitOnCharAux sep rest (c :: cur)

/-- Modelled from the spec: `String.prototype.split` with a one-character
literal separator (a JavaScript builtin): the fields between separator
occurrences, empty fields included. -/
def splitOnChar (sep : Char) (l : List Char) : List (List Char) :=
  splitOnCharAux sep l []

/-- Helper for `splitWsC`: split at every whitespace character. -/
def splitPredAux : List Char → List Char → List (List Char)
  | [], cur => [cur.reverse]
  | c :: rest, cur =>
    if c.isWhitespace then cur.reverse :: splitPredAux rest []
    else splitPredAux rest (c :: cur)

/-- Helper for `splitWsC`: drop the empty fields of the per-character
split except a final one.  Consecutive separator characters inside the
string produce empty per-character fields that a maximal-run match
swallows, but an empty field produced by a separator at the very end of
the string is a real ECMAScript field and is kept. -/
def wsMid : List (List Char) → List (List Char)
  | [] => []
  | [f] => [f]
  | f :: rest => if f = [] then wsMid rest else f :: wsMid rest

/-- Modelled from the spec: `String.prototype.split(/\s+/)` (a JavaScript
builtin): the fields between the maximal whitespace runs.  A regex match
at the start or the end of the string contributes an empty leading or
trailing field (ECMAScript emits `""` there, and the source's
`parts.length` check counts it), while interior runs produce no empty
fields; the empty string yields `[""]`.  Computed from the per-character
split by keeping the first field as is and removing the empty fields of
the remainder except a trailing one. -/
def splitWsC (l : List Char) : List (List Char) :=
  match splitPredAux l [] with
  | [] => []
  | f :: rest => f :: wsMid rest

/-- `coords.trim().replace(COMMA_REGEX, " ")`: every comma becomes a
space. -/
def commaNormC (l : List Char) : List Char :=
  l.map (fun c => if c = ',' then ' ' else c)

/-- The token list of the `q`/`c`/`t`/`s`/`a` string parsers: trim,
normalize commas to spaces, split on whitespace runs.  Because the trim
happens before the comma replacement, a comma at either end of the input
reintroduces boundary whitespace there, and the split then emits an empty
boundary token that counts toward the source's `parts.length` check (and
that `parseFloat` rejects).  Tokens are kept as character lists, the
faithful reduction-friendly image of JavaScript's strings. -/
def wsTokens (s : String) : List (List Char) :=
  splitWsC (commaNormC (charTrim s.data))

/-- The token list of `ms`/`ls`: trim, then split on single spaces. -/
def spaceTokens (s : String) : List (List Char) :=
  splitOnChar ' ' (charTrim s.data)

/-- `ms(coords)`: split on single spaces, `parseFloat` the first two fields
(`parseFloat(undefined)` is `NaN`, modelled by `none`), throw on `NaN`,
else push `M`.  There is no token-count check. -/
def msOp (pf : List Char → Option K) (cmds : List (Cmd K)) (coords : String) :
    Except String (List (Cmd K)) :=
  let parts := spaceTokens coords
  match parts[0]?.bind pf, parts[1]?.bind pf with
  | some x, some y => .ok (cmds ++ [.M x y])
  | _, _ => .error ("Invalid coordinates string: \"" ++ coords ++ "\"")

/-- `ls(coords)`: like `ms` but pushes `L`. -/
def lsOp (pf : List Char → Option K) (cmds : List (Cmd K)) (coords : String) :
    Except String (List (Cmd K)) :=
  let parts := spaceTokens coords
  match parts[0]?.bind pf, parts[1]?.bind pf with
  | some x, some y => .ok (cmds ++ [.L x y])
  | _, _ => .error ("Invalid coordinates string: \"" ++ coords ++ "\"")

/-- `qs(coords)`: exactly four whitespace/comma tokens, all parsable, else
throw; pushes `Q`. -/
def qsOp (pf : List Char → Option K) (cmds : List (Cmd K)) (coords : String) :
    Except String (List (Cmd K)) :=
  let parts := wsTokens coords
  if parts.length ≠ 4 then
    .error ("Invalid coordinates string for Q: \"" ++ coords ++ "\"")
  else
    match parts[0]?.bind pf, parts[1]?.bind pf, parts[2]?.bind pf, parts[3]?.bind pf with
    | some x1, some y1, some x, some y => .ok (cmds ++ [.Q x1 y1 x y])
    | _, _, _, _ => .error ("Invalid numeric values in Q string: \"" ++ coords ++ "\"")

/-- `cs(coords)`: exactly six tokens, all parsable; pushes `C`. -/
def csOp (pf : List Char → Option K) (cmds : List (Cmd K)) (coords : String) :
    Except String (List (Cmd K)) :=
  let parts := wsTokens coords
  if parts.length ≠ 6 then
    .error ("Invalid coordinates string for C: \"" ++ coords ++ "\"")
  else
    match parts[0]?.bind pf, parts[1]?.bind pf, parts[2]?.bind pf, parts[3]?.bind pf,
      parts[4]?.bind pf, parts[5]?.bind pf with
    | some x1, some y1, some x2, some y2, some x, some y =>
        .ok (cmds ++ [.C x1 y1 x2 y2 x y])
    | _, _, _, _, _, _ =>
        .error ("Invalid numeric values in C string: \"" ++ coords ++ "\"")

/-- `ts(coords)`: exactly two tokens, both parsable; pushes `T`. -/
def tsOp (pf : List Char → Option K) (cmds : List (Cmd K)) (coords : String) :
    Except String (List (Cmd K)) :=
  let parts := wsTokens coords
  if parts.length ≠ 2 then
    .error ("Invalid coordinates string for T: \"" ++ coords ++ "\"")
  else
    match parts[0]?.bind pf, parts[1]?.bind pf with
    | some x, some y => .ok (cmds ++ [.T x y])
    | _, _ => .error ("Invalid numeric values in T string: \"" ++ coords ++ "\"")

/-- `ss(coords)`: exactly four tokens, all parsable; pushes `S`. -/
def ssOp (pf : List Char → Option K) (cmds : List (Cmd K)) (coords : String) :
    Except String (List (Cmd K)) :=
  let parts := wsTokens coords
  if parts.length ≠ 4 then
    .error ("Invalid coordinates string for S: \"" ++ coords ++ "\"")
  else
    match parts[0]?.bind pf, parts[1]?.bind pf, parts[2]?.bind pf, parts[3]?.bind pf with
    | some x2, some y2, some x, some y => .ok (cmds ++ [.S x2 y2 x y])
    | _, _, _, _ => .error ("Invalid numeric values in S string: \"" ++ coords ++ "\"")

/-- The raw parse of `parseFloat`: skip whitespace, optional sign, integer
digits, optional fraction digits; `none` when no digit is found.  Returns
`(negative, integer part, fraction part, fraction length)` as plain
naturals so the parse itself is kernel-computable. -/
def pfParse (l : List Char) : Option (Bool × ℕ × ℕ × ℕ) :=
  let l0 := l.dropWhile Char.isWhitespace
  let (neg, l1) : Bool × List Char :=
    match l0 with
    | '-' :: r => (true, r)
    | '+' :: r => (false, r)
    | _ => (false, l0)
  let ds := l1.takeWhile Char.isDigit
  let rest := l1.dropWhile Char.isDigit
  let fs :=
    match rest with
    | '.' :: r => r.takeWhile Char.isDigit
    | _ => []
  if ds = [] ∧ fs = [] then none
  else
    some (neg, ds.foldl (fun acc c => 10 * acc + (c.toNat - 48)) 0,
      fs.foldl (fun acc c => 10 * acc + (c.toNat - 48)) 0, fs.length)

/-- Modelled from the spec: the JavaScript `parseFloat` builtin (an
external collaborator used by the textual parsers): parse an optional sign
followed by a decimal-digit run with optional fraction as a number prefix;
`none` models `NaN` (no parsable prefix).  The builtin's exponent and
`Infinity` forms are omitted; no claim exercises them. -/
def pfQ (l : List Char) : Option ℚ :=
  (pfParse l).map (fun r =>
    (if r.1 then -1 else 1) * ((r.2.1 : ℚ) + (r.2.2.1 : ℚ) / (10 : ℚ) ^ r.2.2.2))

/-! ### Real-valued operations: `rotate` and the arc converter

These use transcendental functions and are therefore stated over `ℝ`
(noncomputably); every claim about them is settled through their guard
structure or symbolically, never by evaluation of the trigonometry. -/

noncomputable section RealOps

/-- `rotate(angle, cx = 0, cy = 0)`: standard 2D rotation about the
pivot. -/
def rotate (angle cx cy : ℝ) (cmds : List (Cmd ℝ)) : List (Cmd ℝ) :=
  let c := Real.cos angle
  let s := Real.sin angle
  mapCoords (fun x y =>
    ⟨(x - cx) * c - (y - cy) * s + cx, (x - cx) * s + (y - cy) * c + cy⟩) cmds

/-- The `unitAngle` helper of `arcToCubic`: signed angle between unit
vectors with the dot product clamped to `[-1, 1]` before `acos`. -/
def unitAngle (ux uy vx vy : ℝ) : ℝ :=
  let sign : ℝ := if ux * vy - uy * vx < 0 then -1 else 1
  let dot0 := ux * vx + uy * vy
  let dot1 := if dot0 > 1 then 1 else dot0
  let dot2 := if dot1 < -1 then -1 else dot1
  sign * Real.arccos dot2

/-- The segment loop of `arcToCubic`: each iteration emits one cubic for
the sweep `[θ₁, θ₁ + dθ]` using the tangent factor
`α = (4/3)·tan(dθ/4)`. -/
def arcSegments (cx cy rx ry cosPhi sinPhi dTheta : ℝ) : ℕ → ℝ → List (Cmd ℝ)
  | 0, _ => []
  | n + 1, theta1 =>
    let t1 := theta1
    let t2 := t1 + dTheta
    let cosT1 := Real.cos t1
    let sinT1 := Real.sin t1
    let cosT2 := Real.cos t2
    let sinT2 := Real.sin t2
    let p1x := cx + rx * (cosPhi * cosT1) - ry * (sinPhi * sinT1)
    let p1y := cy + rx * (sinPhi * cosT1) + ry * (cosPhi * sinT1)
    let p2x := cx + rx * (cosPhi * cosT2) - ry * (sinPhi * sinT2)
    let p2y := cy + rx * (sinPhi * cosT2) + ry * (cosPhi * sinT2)
    let d1x := -rx * cosPhi * sinT1 - ry * sinPhi * cosT1
    let d1y := -rx * sinPhi * sinT1 + ry * cosPhi * cosT1
    let d2x := -rx * cosPhi * sinT2 - ry * sinPhi * cosT2
    let d2y := -rx * sinPhi * sinT2 + ry * cosPhi * cosT2
    let alpha := (4 / 3) * Real.tan ((t2 - t1) / 4)
    let c1x := p1x + alpha * d1x
    let c1y := p1y + alpha * d1y
    let c2x := p2x - alpha * d2x
    let c2y := p2y - alpha * d2y
    Cmd.C c1x c1y c2x c2y p2x p2y :: arcSegments cx cy rx ry cosPhi sinPhi dTheta n t2

/-- `arcToCubic(x0, y0, rx, ry, xAxisRotation, largeArcFlag, sweepFlag, x,
y)`: the SVG endpoint-to-center arc conversion.  Degenerate guards first:
identical endpoints give no segments; a zero radius gives one straight-line
cubic.  Otherwise: radius correction, center solving with the
flag-selected sign, start/sweep angles adjusted by the sweep flag, and a
`≤ 90°` segment split. -/
def arcToCubic (x0 y0 rx ry xAxisRotation : ℝ) (largeArcFlag sweepFlag : Bool)
    (x y : ℝ) : List (Cmd ℝ) :=
  if x0 = x ∧ y0 = y then []
  else if rx = 0 ∨ ry = 0 then [.C x0 y0 x y x y]
  else
    let phi := (Real.pi / 180) * xAxisRotation
    let cosPhi := Real.cos phi
    let sinPhi := Real.sin phi
    let dx2 := (x0 - x) / 2
    let dy2 := (y0 - y) / 2
    let x1p := cosPhi * dx2 + sinPhi * dy2
    let y1p := -sinPhi * dx2 + cosPhi * dy2
    let rxa := |rx|
    let rya := |ry|
    let lam := (x1p * x1p) / (rxa * rxa) + (y1p * y1p) / (rya * rya)
    let rxc := if lam > 1 then rxa * Real.sqrt lam else rxa
    let ryc := if lam > 1 then rya * Real.sqrt lam else rya
    let rxSq := rxc * rxc
    let rySq := ryc * ryc
    let x1pSq := x1p * x1p
    let y1pSq := y1p * y1p
    let rad0 := rxSq * rySq - rxSq * y1pSq - rySq * x1pSq
    let rad1 := if rad0 < 0 then 0 else rad0
    let rad2 := rad1 / (rxSq * y1pSq + rySq * x1pSq)
    let rad3 := Real.sqrt rad2 * (if largeArcFlag = sweepFlag then -1 else 1)
    let cxp := (rad3 * rxc * y1p) / ryc
    let cyp := (rad3 * (-ryc) * x1p) / rxc
    let cx := cosPhi * cxp - sinPhi * cyp + (x0 + x) / 2
    let cy := sinPhi * cxp + cosPhi * cyp + (y0 + y) / 2
    let v1x := (x1p - cxp) / rxc
    let v1y := (y1p - cyp) / ryc
    let v2x := (-x1p - cxp) / rxc
    let v2y := (-y1p - cyp) / ryc
    let theta1 := unitAngle 1 0 v1x v1y
    let delta0 := unitAngle v1x v1y v2x v2y
    let delta1 := if sweepFlag = false ∧ delta0 > 0 then delta0 - Real.pi * 2 else delta0
    let delta2 := if sweepFlag = true ∧ delta1 < 0 then delta1 + Real.pi * 2 else delta1
    let segments : ℤ := max ⌈|delta2| / (Real.pi / 2)⌉ 1
    let dTheta := delta2 / (segments : ℝ)
    arcSegments cx cy rxc ryc cosPhi sinPhi dTheta segments.toNat theta1

/-- `a(rx, ry, xAxisRotation, largeArcFlag, sweepFlag, x, y)`: convert the
arc from the current point and push the resulting cubics. -/
def aOp (cmds : List (Cmd ℝ)) (rx ry xAxisRotation : ℝ) (largeArcFlag sweepFlag : Bool)
    (x y : ℝ) : List (Cmd ℝ) :=
  let p0 := getCurrentPoint cmds
  cmds ++ arcToCubic p0.x p0.y rx ry xAxisRotation largeArcFlag sweepFlag x y

/-- `as(params)`: exactly seven tokens; `rx`, `ry`, rotation and the
endpoint parse with `parseFloat` (`pf`), the two flags with `parseInt`
(`pi`) and must be `0` or `1`; any failure throws, else delegates to
`a`. -/
def asOp (pf : List Char → Option ℝ) (pi : List Char → Option ℤ) (cmds : List (Cmd ℝ))
    (params : String) : Except String (List (Cmd ℝ)) :=
  let parts := wsTokens params
  if parts.length ≠ 7 then
    .error ("Invalid parameter string for A: \"" ++ params ++ "\"")
  else
    let rx? := parts[0]?.bind pf
    let ry? := parts[1]?.bind pf
    let rot? := parts[2]?.bind pf
    let large? := parts[3]?.bind pi
    let sweep? := parts[4]?.bind pi
    let x? := parts[5]?.bind pf
    let y? := parts[6]?.bind pf
    match rx?, ry?, rot?, x?, y? with
    | some rx, some ry, some rot, some x, some y =>
      if (large? = some 0 ∨ large? = some 1) ∧ (sweep? = some 0 ∨ sweep? = some 1) then
        .ok (aOp cmds rx ry rot (large? = some 1) (sweep? = some 1) x y)
      else
        .error ("Invalid numeric values in A string: \"" ++ params ++ "\"")
    | _, _, _, _, _ =>
      .error ("Invalid numeric values in A string: \"" ++ params ++ "\"")

end RealOps

/-! ### Specification-side predicates used to state the claims -/

/-- A segment command with an endpoint that the reversal walk re-emits
(`L`, `Q` or `C`). -/
def Cmd.isSeg : Cmd K → Bool
  | .L _ _ => true
  | .Q _ _ _ _ => true
  | .C _ _ _ _ _ _ => true
  | _ => false

/-- The endpoint of a canonical command (`M`/`L`/`Q`/`C` carry one, `Z`
does not). -/
def epcan : Cmd K → Option (Pt K)
  | .M x y => some ⟨x, y⟩
  | .L x y => some ⟨x, y⟩
  | .Q _ _ x y => some ⟨x, y⟩
  | .C _ _ _ _ x y => some ⟨x, y⟩
  | _ => none

/-- Flip a point's `y` against the path height (design space → font
space). -/
def Pt.flip (h : K) (p : Pt K) : Pt K := ⟨p.x, h - p.y⟩

/-- The endpoints re-emitted by the reversal walk, in emission order: each
`L`/`Q`/`C` contributes the nearest earlier endpoint (the walk runs over
the reversed pair list, so that is the first `some` among the remaining
pairs), falling back to the subpath's first vertex. -/
def emPts (fb : Pt K) : List (Cmd K × Option (Pt K)) → List (Pt K)
  | [] => []
  | (c, _) :: rest =>
    if c.isSeg then ((rest.findSome? Prod.snd).getD fb) :: emPts fb rest
    else emPts fb rest

/-- A canonical subpath: only `M`/`L`/`Q`/`C`/`Z` commands, and a `M` can
only stand at the head (the data model's notion of subpath: a run from one
move to the next move or close). -/
def SubpathLike (sub : List (Cmd K)) : Prop :=
  (∀ c ∈ sub, c.canonical) ∧ ∀ c ∈ sub.tail, c.isM = false

/-- Does the block start with a `M`? -/
def startsWithM (l : List (Cmd K)) : Bool :=
  match l.head? with
  | some c => c.isM
  | none => false

/-- A well-formed block as produced by `splitSubpaths`: nonempty, `Z` at
most as the final command, `M` at most as the first. -/
def WFBlock (blk : List (Cmd K)) : Prop :=
  blk ≠ [] ∧ (∀ c ∈ blk.dropLast, c.isZ = false) ∧ ∀ c ∈ blk.tail, c.isM = false

/-- Consecutive blocks re-split at the same boundaries: each block either
ends with `Z` or is followed by a block starting with `M`. -/
def ChainOK : List (List (Cmd K)) → Prop
  | [] => True
  | [_] => True
  | b :: b' :: rest => (endsWithZ b = true ∨ startsWithM b' = true) ∧ ChainOK (b' :: rest)

/-- Three points are collinear (zero cross product of the difference
vectors). -/
def collinear3 (a b c : Pt K) : Prop :=
  (b.x - a.x) * (c.y - a.y) - (c.x - a.x) * (b.y - a.y) = 0

/-- An error message that identifies the offending input string (contains
it verbatim). -/
def mentionsInput (e s : String) : Prop :=
  ∃ pre post, e = pre ++ s ++ post

/-- The error condition of `ms`/`ls` (which split on single spaces and read
only the first two fields): one of the first two fields is missing or
unparsable. -/
def msFieldsBad (pf : List Char → Option K) (s : String) : Prop :=
  (spaceTokens s)[0]?.bind pf = none ∨ (spaceTokens s)[1]?.bind pf = none

/-- The error condition of the `q`/`c`/`t`/`s` string parsers: wrong token
count, or some token `parseFloat` cannot parse. -/
def tokensBad (pf : List Char → Option K) (n : ℕ) (s : String) : Prop :=
  (wsTokens s).length ≠ n ∨ ∃ t ∈ wsTokens s, pf t = none

/-- The error condition of `as`: wrong token count, an unparsable numeric
token, or a flag token that does not parse to `0` or `1`. -/
def asBad (pf : List Char → Option ℝ) (pi : List Char → Option ℤ) (s : String) : Prop :=
  (wsTokens s).length ≠ 7 ∨
    (∃ i ∈ ([0, 1, 2, 5, 6] : List ℕ), (wsTokens s)[i]?.bind pf = none) ∨
    ¬ ((wsTokens s)[3]?.bind pi = some 0 ∨ (wsTokens s)[3]?.bind pi = some 1) ∨
    ¬ ((wsTokens s)[4]?.bind pi = some 0 ∨ (wsTokens s)[4]?.bind pi = some 1)

/-! ## General lemmas about the embedding -/

@[simp] theorem isM_M (x y : K) : (Cmd.M x y).isM = true := rfl
@[simp] theorem isM_L (x y : K) : (Cmd.L x y).isM = false := rfl
@[simp] theorem isM_Q (x1 y1 x y : K) : (Cmd.Q x1 y1 x y).isM = false := rfl
@[simp] theorem isM_C (x1 y1 x2 y2 x y : K) : (Cmd.C x1 y1 x2 y2 x y).isM = false := rfl
@[simp] theorem isM_Z : (Cmd.Z : Cmd K).isM = false := rfl
@[simp] theorem isM_H (x : K) : (Cmd.H x).isM = false := rfl
@[simp] theorem isM_V (y : K) : (Cmd.V y).isM = false := rfl
@[simp] theorem isM_S (x2 y2 x y : K) : (Cmd.S x2 y2 x y).isM = false := rfl
@[simp] theorem isM_T (x y : K) : (Cmd.T x y).isM = false := rfl

@[simp] theorem isZ_M (x y : K) : (Cmd.M x y).isZ = false := rfl
@[simp] theorem isZ_L (x y : K) : (Cmd.L x y).isZ = false := rfl
@[simp] theorem isZ_Q (x1 y1 x y : K) : (Cmd.Q x1 y1 x y).isZ = false := rfl
@[simp] theorem isZ_C (x1 y1 x2 y2 x y : K) : (Cmd.C x1 y1 x2 y2 x y).isZ = false := rfl
@[simp] theorem isZ_Z : (Cmd.Z : Cmd K).isZ = true := rfl
@[simp] theorem isZ_H (x : K) : (Cmd.H x).isZ = false := rfl
@[simp] theorem isZ_V (y : K) : (Cmd.V y).isZ = false := rfl
@[simp] theorem isZ_S (x2 y2 x y : K) : (Cmd.S x2 y2 x y).isZ = false := rfl
@[simp] theorem isZ_T (x y : K) : (Cmd.T x y).isZ = false := rfl

@[simp] theorem isSeg_M (x y : K) : (Cmd.M x y).isSeg = false := rfl
@[simp] theorem isSeg_L (x y : K) : (Cmd.L x y).isSeg = true := rfl
@[simp] theorem isSeg_Q (x1 y1 x y : K) : (Cmd.Q x1 y1 x y).isSeg = true := rfl
@[simp] theorem isSeg_C (x1 y1 x2 y2 x y : K) : (Cmd.C x1 y1 x2 y2 x y).isSeg = true := rfl
@[simp] theorem isSeg_Z : (Cmd.Z : Cmd K).isSeg = false := rfl

@[simp] theorem epcan_M (x y : K) : epcan (Cmd.M x y) = some ⟨x, y⟩ := rfl
@[simp] theorem epcan_L (x y : K) : epcan (Cmd.L x y) = some ⟨x, y⟩ := rfl
@[simp] theorem epcan_Q (x1 y1 x y : K) : epcan (Cmd.Q x1 y1 x y) = some ⟨x, y⟩ := rfl
@[simp] theorem epcan_C (x1 y1 x2 y2 x y : K) :
    epcan (Cmd.C x1 y1 x2 y2 x y) = some ⟨x, y⟩ := rfl
@[simp] theorem epcan_Z : epcan (Cmd.Z : Cmd K) = none := rfl

theorem emPts_cons_seg (fb : Pt K) (c : Cmd K) (ep : Option (Pt K))
    (rest : List (Cmd K × Option (Pt K))) (hseg : c.isSeg = true) :
    emPts fb ((c, ep) :: rest) = ((rest.findSome? Prod.snd).getD fb) :: emPts fb rest := by
  simp [emPts, hseg]

theorem emPts_cons_nonseg (fb : Pt K) (c : Cmd K) (ep : Option (Pt K))
    (rest : List (Cmd K × Option (Pt K))) (hseg : c.isSeg = false) :
    emPts fb ((c, ep) :: rest) = emPts fb rest := by
  simp [emPts, hseg]

theorem map_tag_mapCoords (fn : K → K → Pt K) (cmds : List (Cmd K)) :
    (mapCoords fn cmds).map Cmd.tag = cmds.map Cmd.tag := by
  simp only [mapCoords, List.map_map]
  apply List.map_congr_left
  intro c _
  cases c <;> rfl

theorem translate_translate (dx dy ex ey : K) (cmds : List (Cmd K)) :
    translate ex ey (translate dx dy cmds) = translate (dx + ex) (dy + ey) cmds := by
  simp only [translate, mapCoords, List.map_map]
  apply List.map_congr_left
  intro c _
  cases c <;> simp [mapCoordsCmd, Function.comp, add_assoc]

theorem translate_zero (cmds : List (Cmd K)) : translate 0 0 cmds = cmds := by
  simp only [translate, mapCoords]
  conv_rhs => rw [← List.map_id cmds]
  apply List.map_congr_left
  intro c _
  cases c <;> simp [mapCoordsCmd]

theorem xsflat_translate (dx dy : K) (cmds : List (Cmd K)) :
    ((translate dx dy cmds).map Cmd.xs).flatten =
      ((cmds.map Cmd.xs).flatten).map (· + dx) := by
  induction cmds with
  | nil => rfl
  | cons c rest ih =>
    simp only [translate, mapCoords, List.map_cons, List.flatten_cons, List.map_append] at *
    rw [ih]
    congr 1
    cases c <;> simp [mapCoordsCmd, Cmd.xs]

theorem ysflat_translate (dx dy : K) (cmds : List (Cmd K)) :
    ((translate dx dy cmds).map Cmd.ys).flatten =
      ((cmds.map Cmd.ys).flatten).map (· + dy) := by
  induction cmds with
  | nil => rfl
  | cons c rest ih =>
    simp only [translate, mapCoords, List.map_cons, List.flatten_cons, List.map_append] at *
    rw [ih]
    congr 1
    cases c <;> simp [mapCoordsCmd, Cmd.ys]

theorem runMin_map_add (t : K) (l : List K) :
    runMin (l.map (· + t)) = (runMin l).map (· + t) := by
  suffices h : ∀ acc : Option K,
      (l.map (· + t)).foldl
        (fun acc v => some (match acc with | none => v | some a => min a v))
        (acc.map (· + t)) =
      (l.foldl (fun acc v => some (match acc with | none => v | some a => min a v))
        acc).map (· + t) by
    simpa [runMin] using h none
  induction l with
  | nil => intro acc; rfl
  | cons v rest ih =>
    intro acc
    cases acc with
    | none => simpa using ih (some v)
    | some a =>
      have : min a v + t = min (a + t) (v + t) := (min_add_add_right a v t).symm
      simpa [this] using ih (some (min a v))

theorem runMax_map_add (t : K) (l : List K) :
    runMax (l.map (· + t)) = (runMax l).map (· + t) := by
  suffices h : ∀ acc : Option K,
      (l.map (· + t)).foldl
        (fun acc v => some (match acc with | none => v | some a => max a v))
        (acc.map (· + t)) =
      (l.foldl (fun acc v => some (match acc with | none => v | some a => max a v))
        acc).map (· + t) by
    simpa [runMax] using h none
  induction l with
  | nil => intro acc; rfl
  | cons v rest ih =>
    intro acc
    cases acc with
    | none => simpa using ih (some v)
    | some a =>
      have : max a v + t = max (a + t) (v + t) := (max_add_add_right a v t).symm
      simpa [this] using ih (some (max a v))

theorem getCommandBounds_translate (dx dy : K) (cmds : List (Cmd K)) :
    getCommandBounds (translate dx dy cmds) =
      { minX := (getCommandBounds cmds).minX.map (· + dx)
        minY := (getCommandBounds cmds).minY.map (· + dy)
        maxX := (getCommandBounds cmds).maxX.map (· + dx)
        maxY := (getCommandBounds cmds).maxY.map (· + dy) } := by
  simp only [getCommandBounds, Bounds.mk.injEq]
  refine ⟨?_, ?_, ?_, ?_⟩
  · rw [xsflat_translate, runMin_map_add]
  · rw [ysflat_translate, runMin_map_add]
  · rw [xsflat_translate, runMax_map_add]
  · rw [ysflat_translate, runMax_map_add]

/-! ## C8: translate round trip restores the bounds exactly -/

/-- C8.  For every path and all offsets `dx`, `dy`, `translate(dx, dy)`
followed by `translate(-dx, -dy)` restores the bounding box computed by
`getCommandBounds` exactly (the embedding computes in exact field
arithmetic, where the cancellation is literal). -/
theorem c8_translate_roundtrip (dx dy : K) (cmds : List (Cmd K)) :
    getCommandBounds (translate (-dx) (-dy) (translate dx dy cmds)) =
      getCommandBounds cmds := by
  rw [translate_translate]
  simp [translate_zero]

/-! ## C10: transforms rewrite the command list elementwise, keeping tags -/

/-- C10.  Every coordinate transform (`scale`, `translate`, `rotate`,
`flipX`, `flipY`, `center`, `fit`) rewrites the command list elementwise:
the list of command type tags (hence also the length) is unchanged — `H`
stays `H`, `V` stays `V`, `Z` stays `Z`. -/
theorem c10_transforms_preserve_tags :
    (∀ (K : Type) (_ : LinearOrderedField K) (sx sy cx cy : K) (cmds : List (Cmd K)),
        (scale sx sy cx cy cmds).map Cmd.tag = cmds.map Cmd.tag) ∧
    (∀ (K : Type) (_ : LinearOrderedField K) (dx dy : K) (cmds : List (Cmd K)),
        (translate dx dy cmds).map Cmd.tag = cmds.map Cmd.tag) ∧
    (∀ (angle cx cy : ℝ) (cmds : List (Cmd ℝ)),
        (rotate angle cx cy cmds).map Cmd.tag = cmds.map Cmd.tag) ∧
    (∀ (K : Type) (_ : LinearOrderedField K) (w : K) (cmds : List (Cmd K)),
        (flipX w cmds).map Cmd.tag = cmds.map Cmd.tag) ∧
    (∀ (K : Type) (_ : LinearOrderedField K) (h : K) (cmds : List (Cmd K)),
        (flipY h cmds).map Cmd.tag = cmds.map Cmd.tag) ∧
    (∀ (K : Type) (_ : LinearOrderedField K) (a b c d : K) (cmds : List (Cmd K)),
        (center a b c d cmds).map Cmd.tag = cmds.map Cmd.tag) ∧
    (∀ (K : Type) (_ : LinearOrderedField K) (w h : K) (pa : Bool) (cmds : List (Cmd K)),
        (fit w h pa cmds).map Cmd.tag = cmds.map Cmd.tag) := by
  refine ⟨?_, ?_, ?_, ?_, ?_, ?_, ?_⟩
  · intro K _ sx sy cx cy cmds; exact map_tag_mapCoords _ cmds
  · intro K _ dx dy cmds; exact map_tag_mapCoords _ cmds
  · intro angle cx cy cmds; exact map_tag_mapCoords _ cmds
  · intro K _ w cmds; exact map_tag_mapCoords _ cmds
  · intro K _ h cmds; exact map_tag_mapCoords _ cmds
  · intro K _ a b c d cmds; exact map_tag_mapCoords _ cmds
  · intro K _ w h pa cmds
    have hc : (center 0 0 w h cmds).map Cmd.tag = cmds.map Cmd.tag := map_tag_mapCoords _ cmds
    simp only [fit]
    cases hx : (getCommandBounds (center 0 0 w h cmds)).minX <;>
      cases hX : (getCommandBounds (center 0 0 w h cmds)).maxX <;>
      cases hy : (getCommandBounds (center 0 0 w h cmds)).minY <;>
      cases hY : (getCommandBounds (center 0 0 w h cmds)).maxY <;>
      simp [apply_ite (List.map Cmd.tag), scale, map_tag_mapCoords, hc]

/-! ## C4: `fit` on zero-extent bounds -/

/-- C4, counterexample.  The path `[M 0 0]` has a bounding box of zero
width and zero height, yet `fit()` does not leave it unchanged: the initial
centering step still runs and moves it to `[M 12 12]` (only the scaling
step is skipped). -/
theorem c4_counterexample :
    (getCommandBounds [Cmd.M (0 : ℚ) 0]).minX = (getCommandBounds [Cmd.M (0 : ℚ) 0]).maxX ∧
    (getCommandBounds [Cmd.M (0 : ℚ) 0]).minY = (getCommandBounds [Cmd.M (0 : ℚ) 0]).maxY ∧
    fit (24 : ℚ) 24 true [Cmd.M 0 0] = [Cmd.M 12 12] ∧
    fit (24 : ℚ) 24 true [Cmd.M 0 0] ≠ [Cmd.M 0 0] := by
  refine ⟨by norm_num [getCommandBounds, runMin, runMax, Cmd.xs, Cmd.ys],
    by norm_num [getCommandBounds, runMin, runMax, Cmd.xs, Cmd.ys], ?_, ?_⟩ <;>
    norm_num [fit, center, getCommandBounds, runMin, runMax, Cmd.xs, Cmd.ys, translate,
      mapCoords, mapCoordsCmd]

/-- C4, amended.  On a path whose bounding box exists (both axes carry
coordinates) and has zero width or zero height, `fit()` performs exactly
the initial centering translation and skips the scaling step (so the
result is `center()`'s output; in exact arithmetic no division happens and
no `NaN` can appear). -/
theorem c4_amended (w h : K) (pa : Bool) (cmds : List (Cmd K)) (a d c e : K)
    (hminX : (getCommandBounds cmds).minX = some a)
    (hmaxX : (getCommandBounds cmds).maxX = some d)
    (hminY : (getCommandBounds cmds).minY = some c)
    (hmaxY : (getCommandBounds cmds).maxY = some e)
    (hdim : d - a = 0 ∨ e - c = 0) :
    fit w h pa cmds = center 0 0 w h cmds := by
  have hc : ∃ dx dy, center 0 0 w h cmds = translate dx dy cmds := ⟨_, _, rfl⟩
  obtain ⟨dx, dy, hcen⟩ := hc
  have hb : getCommandBounds (center 0 0 w h cmds) =
      { minX := some (a + dx), minY := some (c + dy),
        maxX := some (d + dx), maxY := some (e + dy) } := by
    rw [hcen, getCommandBounds_translate, hminX, hmaxX, hminY, hmaxY]
    rfl
  simp only [fit, hb]
  rw [if_pos]
  rcases hdim with hdim | hdim
  · exact Or.inl (by rw [← hdim]; ring)
  · exact Or.inr (by rw [← hdim]; ring)

/-- C4, witness for the amended theorem: a horizontal segment (zero-height
bounds); `fit` is just `center`. -/
theorem c4_witness :
    fit (24 : ℚ) 24 true [Cmd.M 0 12, Cmd.L 24 12] = center 0 0 24 24 [Cmd.M 0 12, Cmd.L 24 12] :=
  c4_amended 24 24 true _ 0 24 12 12
    (by norm_num [getCommandBounds, runMin, runMax, Cmd.xs, Cmd.ys])
    (by norm_num [getCommandBounds, runMin, runMax, Cmd.xs, Cmd.ys])
    (by norm_num [getCommandBounds, runMin, runMax, Cmd.xs, Cmd.ys])
    (by norm_num [getCommandBounds, runMin, runMax, Cmd.xs, Cmd.ys])
    (Or.inr (by norm_num))

/-! ## C5: `arcToCubic` degenerate cases -/

/-- C5.  Degenerate arcs: identical start and end points produce an empty
segment list; distinct endpoints with a zero radius produce exactly one
cubic whose control points coincide with the segment's endpoints and are
therefore collinear with them. -/
theorem c5_arcToCubic_degenerate (x0 y0 rx ry rot : ℝ) (la sw : Bool) (x y : ℝ) :
    (x0 = x ∧ y0 = y → arcToCubic x0 y0 rx ry rot la sw x y = []) ∧
    (¬ (x0 = x ∧ y0 = y) → rx = 0 ∨ ry = 0 →
      arcToCubic x0 y0 rx ry rot la sw x y = [Cmd.C x0 y0 x y x y] ∧
      collinear3 ⟨x0, y0⟩ ⟨x, y⟩ ⟨x0, y0⟩ ∧ collinear3 ⟨x0, y0⟩ ⟨x, y⟩ ⟨x, y⟩) := by
  constructor
  · intro hsame
    rw [arcToCubic, if_pos hsame]
  · intro hne hr
    rw [arcToCubic, if_neg hne, if_pos hr]
    refine ⟨rfl, ?_, ?_⟩ <;> · simp only [collinear3]; ring

/-- C5, witness: a same-point arc is dropped; a zero-radius arc from
`(1, 2)` to `(3, 4)` becomes the single straight-line cubic with collinear
controls. -/
theorem c5_witness :
    arcToCubic 1 2 5 5 0 false true 1 2 = [] ∧
    arcToCubic 1 2 0 7 0 false true 3 4 = [Cmd.C 1 2 3 4 3 4] ∧
    collinear3 (⟨1, 2⟩ : Pt ℝ) ⟨3, 4⟩ ⟨1, 2⟩ ∧ collinear3 (⟨1, 2⟩ : Pt ℝ) ⟨3, 4⟩ ⟨3, 4⟩ := by
  refine ⟨(c5_arcToCubic_degenerate 1 2 5 5 0 false true 1 2).1 (by norm_num), ?_⟩
  have h := (c5_arcToCubic_degenerate 1 2 0 7 0 false true 3 4).2 (by norm_num) (Or.inl rfl)
  exact ⟨h.1, h.2.1, h.2.2⟩

/-! ## C2: the concrete font-space projection scenario -/

/-- C2.  Projecting the full-canvas 24×24 square with
`toOpenTypePath(800, -200)` yields the font-space box
`(0, -200)–(1000, 800)`; scaling the square by `0.5` about its center first
yields `(250, 50)–(750, 550)`. -/
theorem c2_projection_scenario :
    otBoundingBox (toOpenTypePath (24 : ℚ) 24 800 (-200)
        (rect { x := 0, y := 0, width := 24, height := 24 } [])) = (0, -200, 1000, 800) ∧
    otBoundingBox (toOpenTypePath (24 : ℚ) 24 800 (-200)
        (scale (1 / 2) (1 / 2) 12 12
          (rect { x := 0, y := 0, width := 24, height := 24 } []))) = (250, 50, 750, 550) := by
  constructor <;>
    norm_num [rect, cornerCmds, scale, mapCoords, mapCoordsCmd, toOpenTypePath,
      getNormalizedWindingForFont, getOpenTypeCommands, canonGo, canonEmit,
      canonStep, splitSubpaths, splitLoop, Cmd.isM, Cmd.isZ, endsWithZ, normLoop, normalizeOne,
      getSignedAreaFontSpace, ptsOf, shoelace, cross, List.rotate,
      otBoundingBox, runMin, runMax, Cmd.xs, Cmd.ys]

/-! ## C6: the canonicalizer emits only canonical commands, with the
smooth-command reflection rule -/

theorem canonGo_append (st : CState K) (xs ys : List (Cmd K)) :
    canonGo st (xs ++ ys) = canonGo st xs ++ canonGo (xs.foldl canonStep st) ys := by
  induction xs generalizing st with
  | nil => rfl
  | cons c rest ih => simp [canonGo, ih]

theorem canonGo_length (st : CState K) (l : List (Cmd K)) :
    (canonGo st l).length = l.length := by
  induction l generalizing st with
  | nil => rfl
  | cons c rest ih => simp [canonGo, ih]

theorem canonEmit_canonical (st : CState K) (c : Cmd K) : (canonEmit st c).canonical := by
  cases c <;> simp [canonEmit, Cmd.canonical]

theorem canonGo_canonical (st : CState K) (l : List (Cmd K)) :
    ∀ c ∈ canonGo st l, c.canonical := by
  induction l generalizing st with
  | nil => intro c hc; cases hc
  | cons d rest ih =>
    intro c hc
    rw [canonGo] at hc
    rcases List.mem_cons.mp hc with hc | hc
    · exact hc ▸ canonEmit_canonical st d
    · exact ih (canonStep st d) c hc

/-- C6.  `getOpenTypeCommands` emits only `M`/`L`/`Q`/`C`/`Z`; a `T` at any
position becomes a `Q` whose control point is the reflection of the last
quadratic control point through the current point (or the current point
itself if none is tracked in the current run), and an `S` becomes a `C`
analogously from the last cubic control point — the tracked state being the
canonicalizer's fold over the preceding commands. -/
theorem c6_canonicalizer (cmds : List (Cmd K)) :
    (∀ c ∈ getOpenTypeCommands cmds, c.canonical) ∧
    (∀ (pre : List (Cmd K)) (x y : K) (post : List (Cmd K)),
      cmds = pre ++ Cmd.T x y :: post →
      (getOpenTypeCommands cmds)[pre.length]? =
        some (Cmd.Q (reflectCtrl (canonState pre).lqx (canonState pre).cx)
          (reflectCtrl (canonState pre).lqy (canonState pre).cy) x y)) ∧
    (∀ (pre : List (Cmd K)) (x2 y2 x y : K) (post : List (Cmd K)),
      cmds = pre ++ Cmd.S x2 y2 x y :: post →
      (getOpenTypeCommands cmds)[pre.length]? =
        some (Cmd.C (reflectCtrl (canonState pre).lcx (canonState pre).cx)
          (reflectCtrl (canonState pre).lcy (canonState pre).cy) x2 y2 x y)) := by
  refine ⟨canonGo_canonical _ cmds, ?_, ?_⟩
  · intro pre x y post hsplit
    subst hsplit
    rw [getOpenTypeCommands, canonGo_append,
      List.getElem?_append_right (le_of_eq (canonGo_length _ pre))]
    simp [canonGo_length, canonGo, canonEmit, canonState]
  · intro pre x2 y2 x y post hsplit
    subst hsplit
    rw [getOpenTypeCommands, canonGo_append,
      List.getElem?_append_right (le_of_eq (canonGo_length _ pre))]
    simp [canonGo_length, canonGo, canonEmit, canonState]

/-- C6, witness: after `Q 1 2 3 4` the current point is `(3, 4)` and the
last quadratic control `(1, 2)`, so `T 5 6` becomes `Q 5 6 5 6`
(`2·3−1 = 5`, `2·4−2 = 6`). -/
theorem c6_witness :
    (getOpenTypeCommands [Cmd.Q (1 : ℚ) 2 3 4, Cmd.T 5 6])[1]? = some (Cmd.Q 5 6 5 6) := by
  have h := (c6_canonicalizer [Cmd.Q (1 : ℚ) 2 3 4, Cmd.T 5 6]).2.1
    [Cmd.Q 1 2 3 4] 5 6 [] rfl
  norm_num [canonState, canonStep, reflectCtrl] at h
  exact h

/-! ## C7: error behavior of the string-based builder operations -/

theorem eq_list_of_length_two {α : Type} (l : List α) (h : l.length = 2) :
    ∃ a b, l = [a, b] := by
  rcases l with _ | ⟨a, _ | ⟨b, _ | ⟨c, t⟩⟩⟩ <;> simp_all

theorem eq_list_of_length_four {α : Type} (l : List α) (h : l.length = 4) :
    ∃ a b c d, l = [a, b, c, d] := by
  rcases l with _ | ⟨a, _ | ⟨b, _ | ⟨c, _ | ⟨d, _ | ⟨e, t⟩⟩⟩⟩⟩ <;> simp_all

theorem eq_list_of_length_six {α : Type} (l : List α) (h : l.length = 6) :
    ∃ a b c d e f, l = [a, b, c, d, e, f] := by
  rcases l with _ | ⟨a, _ | ⟨b, _ | ⟨c, _ | ⟨d, _ | ⟨e, _ | ⟨f, _ | ⟨g, t⟩⟩⟩⟩⟩⟩⟩ <;> simp_all

theorem eq_list_of_length_seven {α : Type} (l : List α) (h : l.length = 7) :
    ∃ a b c d e f g, l = [a, b, c, d, e, f, g] := by
  rcases l with _ | ⟨a, _ | ⟨b, _ | ⟨c, _ | ⟨d, _ | ⟨e, _ | ⟨f, _ | ⟨g, _ | ⟨i, t⟩⟩⟩⟩⟩⟩⟩⟩ <;>
    simp_all

/-- C7, amended.  Each string-based builder operation throws exactly when
its own validation fails — `qs`/`cs`/`ts`/`ss`: wrong whitespace/comma
token count or a token `parseFloat` cannot parse; `as`: additionally a flag
token that does not parse to `0` or `1`; `ms`/`ls` (which split on single
spaces and read only the first two fields, performing no token-count
check): a missing or unparsable first or second field — and every thrown
error message contains the offending input string verbatim.  A failed call
leaves the command list unmodified: the embedding returns the untouched
list on error by construction, mirroring the source, which pushes only
after validation. -/
theorem c7_string_op_errors :
    (∀ (K : Type) (_ : LinearOrderedField K) (pf : List Char → Option K)
        (cmds : List (Cmd K)) (s : String),
      (isErr (msOp pf cmds s) = true ↔ msFieldsBad pf s) ∧
      (isErr (lsOp pf cmds s) = true ↔ msFieldsBad pf s) ∧
      (isErr (qsOp pf cmds s) = true ↔ tokensBad pf 4 s) ∧
      (isErr (csOp pf cmds s) = true ↔ tokensBad pf 6 s) ∧
      (isErr (tsOp pf cmds s) = true ↔ tokensBad pf 2 s) ∧
      (isErr (ssOp pf cmds s) = true ↔ tokensBad pf 4 s) ∧
      (∀ e, msOp pf cmds s = .error e → mentionsInput e s) ∧
      (∀ e, lsOp pf cmds s = .error e → mentionsInput e s) ∧
      (∀ e, qsOp pf cmds s = .error e → mentionsInput e s) ∧
      (∀ e, csOp pf cmds s = .error e → mentionsInput e s) ∧
      (∀ e, tsOp pf cmds s = .error e → mentionsInput e s) ∧
      (∀ e, ssOp pf cmds s = .error e → mentionsInput e s)) ∧
    (∀ (pf : List Char → Option ℝ) (pi : List Char → Option ℤ) (cmds : List (Cmd ℝ))
        (s : String),
      (isErr (asOp pf pi cmds s) = true ↔ asBad pf pi s) ∧
      (∀ e, asOp pf pi cmds s = .error e → mentionsInput e s)) := by
  constructor
  · intro K _ pf cmds s
    refine ⟨?_, ?_, ?_, ?_, ?_, ?_, ?_, ?_, ?_, ?_, ?_, ?_⟩
    · rcases h0 : (spaceTokens s)[0]?.bind pf with _ | x <;>
        rcases h1 : (spaceTokens s)[1]?.bind pf with _ | y <;>
        simp [msOp, isErr, msFieldsBad, h0, h1]
    · rcases h0 : (spaceTokens s)[0]?.bind pf with _ | x <;>
        rcases h1 : (spaceTokens s)[1]?.bind pf with _ | y <;>
        simp [lsOp, isErr, msFieldsBad, h0, h1]
    · by_cases hl : (wsTokens s).length = 4
      · obtain ⟨a, b, c, d, he⟩ := eq_list_of_length_four _ hl
        rcases hp1 : pf a with _ | v1 <;> rcases hp2 : pf b with _ | v2 <;>
          rcases hp3 : pf c with _ | v3 <;> rcases hp4 : pf d with _ | v4 <;>
          simp [qsOp, isErr, tokensBad, he, hp1, hp2, hp3, hp4]
      · simp [qsOp, isErr, tokensBad, hl]
    · by_cases hl : (wsTokens s).length = 6
      · obtain ⟨a, b, c, d, e, f, he⟩ := eq_list_of_length_six _ hl
        rcases hp1 : pf a with _ | v1 <;> rcases hp2 : pf b with _ | v2 <;>
          rcases hp3 : pf c with _ | v3 <;> rcases hp4 : pf d with _ | v4 <;>
          rcases hp5 : pf e with _ | v5 <;> rcases hp6 : pf f with _ | v6 <;>
          simp [csOp, isErr, tokensBad, he, hp1, hp2, hp3, hp4, hp5, hp6]
      · simp [csOp, isErr, tokensBad, hl]
    · by_cases hl : (wsTokens s).length = 2
      · obtain ⟨a, b, he⟩ := eq_list_of_length_two _ hl
        rcases hp1 : pf a with _ | v1 <;> rcases hp2 : pf b with _ | v2 <;>
          simp [tsOp, isErr, tokensBad, he, hp1, hp2]
      · simp [tsOp, isErr, tokensBad, hl]
    · by_cases hl : (wsTokens s).length = 4
      · obtain ⟨a, b, c, d, he⟩ := eq_list_of_length_four _ hl
        rcases hp1 : pf a with _ | v1 <;> rcases hp2 : pf b with _ | v2 <;>
          rcases hp3 : pf c with _ | v3 <;> rcases hp4 : pf d with _ | v4 <;>
          simp [ssOp, isErr, tokensBad, he, hp1, hp2, hp3, hp4]
      · simp [ssOp, isErr, tokensBad, hl]
    · intro e he
      rcases h0 : (spaceTokens s)[0]?.bind pf with _ | x <;>
        rcases h1 : (spaceTokens s)[1]?.bind pf with _ | y <;>
        simp [msOp, h0, h1] at he <;> exact ⟨_, _, he.symm⟩
    · intro e he
      rcases h0 : (spaceTokens s)[0]?.bind pf with _ | x <;>
        rcases h1 : (spaceTokens s)[1]?.bind pf with _ | y <;>
        simp [lsOp, h0, h1] at he <;> exact ⟨_, _, he.symm⟩
    · intro e he
      simp only [qsOp] at he
      split at he
      · exact ⟨_, _, (Except.error.inj he).symm⟩
      · split at he
        · exact Except.noConfusion he
        · exact ⟨_, _, (Except.error.inj he).symm⟩
    · intro e he
      simp only [csOp] at he
      split at he
      · exact ⟨_, _, (Except.error.inj he).symm⟩
      · split at he
        · exact Except.noConfusion he
        · exact ⟨_, _, (Except.error.inj he).symm⟩
    · intro e he
      simp only [tsOp] at he
      split at he
      · exact ⟨_, _, (Except.error.inj he).symm⟩
      · split at he
        · exact Except.noConfusion he
        · exact ⟨_, _, (Except.error.inj he).symm⟩
    · intro e he
      simp only [ssOp] at he
      split at he
      · exact ⟨_, _, (Except.error.inj he).symm⟩
      · split at he
        · exact Except.noConfusion he
        · exact ⟨_, _, (Except.error.inj he).symm⟩
  · intro pf pi cmds s
    constructor
    · by_cases hl : (wsTokens s).length = 7
      · obtain ⟨a, b, c, d, e, f, g, he⟩ := eq_list_of_length_seven _ hl
        rcases h1 : pf a with _ | v1
        · simp [asOp, isErr, asBad, he, h1]
        rcases h2 : pf b with _ | v2
        · simp [asOp, isErr, asBad, he, h1, h2]
        rcases h3 : pf c with _ | v3
        · simp [asOp, isErr, asBad, he, h1, h2, h3]
        rcases h4 : pf f with _ | v4
        · simp [asOp, isErr, asBad, he, h1, h2, h3, h4]
        rcases h5 : pf g with _ | v5
        · simp [asOp, isErr, asBad, he, h1, h2, h3, h4, h5]
        by_cases hL : (pi d = some 0 ∨ pi d = some 1) <;>
          by_cases hS : (pi e = some 0 ∨ pi e = some 1) <;>
          simp [asOp, isErr, asBad, he, h1, h2, h3, h4, h5, hL, hS]
      · simp [asOp, isErr, asBad, hl]
    · intro e he
      simp only [asOp] at he
      split at he
      · exact ⟨_, _, (Except.error.inj he).symm⟩
      · split at he
        · split at he
          · exact Except.noConfusion he
          · exact ⟨_, _, (Except.error.inj he).symm⟩
        · exact ⟨_, _, (Except.error.inj he).symm⟩

/-- C7, counterexample.  `ms("1 2 3")` has the wrong token count (three
tokens for a two-argument operation) but does not throw: `ms` performs no
token-count check and silently appends `M 1 2`, contradicting the claimed
throw-iff condition. -/
theorem c7_counterexample :
    (spaceTokens "1 2 3").length = 3 ∧
    msOp pfQ ([] : List (Cmd ℚ)) "1 2 3" = .ok [Cmd.M 1 2] := by
  constructor
  · decide
  · have h0 : spaceTokens "1 2 3" = [['1'], ['2'], ['3']] := by decide
    have h1 : pfParse ['1'] = some (false, 1, 0, 0) := by decide
    have h2 : pfParse ['2'] = some (false, 2, 0, 0) := by decide
    simp [msOp, h0, pfQ, h1, h2]

/-- C7, witness for the amended theorem: `qs` on a string with a leading
comma throws — the comma becomes boundary whitespace after the trim, the
whitespace split emits a leading empty token, and the resulting five
tokens fail the count check — and the thrown message contains the
offending input. -/
theorem c7_witness :
    isErr (qsOp pfQ ([] : List (Cmd ℚ)) ",1 2 3 4") = true ∧
    mentionsInput ("Invalid coordinates string for Q: \"" ++ ",1 2 3 4" ++ "\"") ",1 2 3 4" := by
  have h := c7_string_op_errors.1 ℚ inferInstance pfQ [] ",1 2 3 4"
  have hq : (wsTokens ",1 2 3 4").length = 5 := by decide
  constructor
  · exact h.2.2.1.mpr (Or.inl (by rw [hq]; decide))
  · refine h.2.2.2.2.2.2.2.2.1 _ ?_
    simp [qsOp, hq]

/-! ## Shoelace-sum lemmas: cyclic invariance, reversal, duplicate last
point -/

theorem cross_self (a : Pt K) : cross a a = 0 := by
  simp [cross, mul_comm]

theorem sum_zipWith_cross_swap (l : List (Pt K)) :
    ∀ m : List (Pt K), (List.zipWith cross m l).sum = -(List.zipWith cross l m).sum := by
  induction l with
  | nil => intro m; cases m <;> simp
  | cons a l ih =>
    intro m
    cases m with
    | nil => simp
    | cons b m =>
      simp only [List.zipWith_cons_cons, List.sum_cons, ih m]
      have : cross b a = -cross a b := by simp only [cross]; ring
      rw [this]
      ring

theorem shoelace_rotate (l : List (Pt K)) (k : ℕ) : shoelace (l.rotate k) = shoelace l := by
  unfold shoelace
  have h1 : (l.rotate k).rotate 1 = (l.rotate 1).rotate k := by
    rw [List.rotate_rotate, List.rotate_rotate, Nat.add_comm]
  rw [h1, ← List.zipWith_rotate_distrib cross l (l.rotate 1) k (by simp)]
  exact List.Perm.sum_eq (List.rotate_perm _ k)

theorem shoelace_reverse (l : List (Pt K)) : shoelace l.reverse = -shoelace l := by
  rcases l with _ | ⟨x, _ | ⟨y, t⟩⟩
  · simp [shoelace]
  · simp [shoelace, cross_self]
  · set l := x :: y :: t with hl
    have hn : l.length = t.length + 2 := by simp [hl]
    have hmod : 1 % l.length = 1 := Nat.mod_eq_of_lt (by omega)
    have hrot : l.reverse.rotate 1 = (l.rotate (l.length - 1)).reverse := by
      rw [List.rotate_reverse, hmod]
    have hlen : l.length = (l.rotate (l.length - 1)).length := by simp
    have hback : (l.rotate (l.length - 1)).rotate 1 = l := by
      rw [List.rotate_rotate]
      have : l.length - 1 + 1 = l.length := by omega
      rw [this, List.rotate_length]
    calc shoelace l.reverse
        = (List.zipWith cross l.reverse (l.rotate (l.length - 1)).reverse).sum := by
          rw [shoelace, hrot]
      _ = ((List.zipWith cross l (l.rotate (l.length - 1))).reverse).sum := by
          rw [List.reverse_zipWith hlen]
      _ = (List.zipWith cross l (l.rotate (l.length - 1))).sum := List.sum_reverse _
      _ = -(List.zipWith cross (l.rotate (l.length - 1)) l).sum := by
          rw [← sum_zipWith_cross_swap]
      _ = -(List.zipWith cross (l.rotate (l.length - 1))
            ((l.rotate (l.length - 1)).rotate 1)).sum := by rw [hback]
      _ = -shoelace (l.rotate (l.length - 1)) := rfl
      _ = -shoelace l := by rw [shoelace_rotate]

theorem zipWith_snoc_right (f : Pt K → Pt K → K) (u v : List (Pt K)) (b : Pt K)
    (hlen : u.length = v.length + 1) (hu : u ≠ []) :
    List.zipWith f u (v ++ [b]) =
      List.zipWith f u.dropLast v ++ [f (u.getLast hu) b] := by
  conv_lhs => rw [← List.dropLast_append_getLast hu]
  rw [List.zipWith_append _ _ _ _ _ (by rw [List.length_dropLast, hlen]; simp)]
  simp

theorem shoelace_concat_getLast (l : List (Pt K)) (hne : l ≠ []) :
    shoelace (l ++ [l.getLast hne]) = shoelace l := by
  rcases l with _ | ⟨p, t⟩
  · exact absurd rfl hne
  · set a := (p :: t).getLast hne with ha
    have h1 : (p :: t) ++ [a] = p :: (t ++ [a]) := rfl
    have hrot1 : ((p :: t) ++ [a]).rotate 1 = (t ++ [a]) ++ [p] := by
      rw [h1, List.rotate_cons_succ, List.rotate_zero]
    have hrot2 : (p :: t).rotate 1 = t ++ [p] := by
      rw [List.rotate_cons_succ, List.rotate_zero]
    rw [shoelace, shoelace, hrot1, hrot2]
    have hout : List.zipWith cross ((p :: t) ++ [a]) ((t ++ [a]) ++ [p]) =
        List.zipWith cross (p :: t) (t ++ [a]) ++ [cross a p] := by
      have := zipWith_snoc_right cross ((p :: t) ++ [a]) (t ++ [a]) p
        (by simp) (by simp)
      rw [this]
      congr 1
      · congr 1
        rw [List.dropLast_concat]
      · congr 1
        simp
    have hin : List.zipWith cross (p :: t) (t ++ [a]) =
        List.zipWith cross (p :: t).dropLast t ++ [cross a a] := by
      have := zipWith_snoc_right cross (p :: t) t a (by simp) (by simp)
      rw [this, ← ha]
    have hr : List.zipWith cross (p :: t) (t ++ [p]) =
        List.zipWith cross (p :: t).dropLast t ++ [cross a p] := by
      have := zipWith_snoc_right cross (p :: t) t p (by simp) (by simp)
      rw [this, ← ha]
    rw [hout, hin, hr]
    simp [cross_self]

/-! ## Endpoint structure of `reverseSubpath` on canonical subpaths -/

theorem findSome?_eq_head?_filterMap {α β : Type} (f : α → Option β) (l : List α) :
    l.findSome? f = (l.filterMap f).head? :=
  (List.filterMap_head? f l).symm

theorem epGo_canonical (sub : List (Cmd K)) (hc : ∀ c ∈ sub, c.canonical) :
    ∀ cx cy, epGo cx cy sub = sub.map epcan := by
  induction sub with
  | nil => intro cx cy; rfl
  | cons c rest ih =>
    intro cx cy
    have hcc := hc c (by simp)
    have hr : ∀ d ∈ rest, d.canonical := fun d hd => hc d (by simp [hd])
    cases c <;> simp only [Cmd.canonical] at hcc <;> simp [epGo, epcan, ih hr]

theorem ptsOf_append (h : K) (xs ys : List (Cmd K)) :
    ptsOf h (xs ++ ys) = ptsOf h xs ++ ptsOf h ys := by
  induction xs with
  | nil => rfl
  | cons c rest ih => cases c <;> simp [ptsOf, ih]

theorem ptsOf_eq_filterMap (h : K) (sub : List (Cmd K)) :
    ptsOf h sub = (sub.filterMap epcan).map (Pt.flip h) := by
  induction sub with
  | nil => rfl
  | cons c rest ih =>
    cases c <;> simp [ptsOf, epcan, List.filterMap_cons, ih, Pt.flip]

theorem reverse_dropLast {α : Type} (l : List α) : l.reverse.dropLast = l.tail.reverse := by
  cases l with
  | nil => rfl
  | cons x xs => simp [List.reverse_cons, List.dropLast_concat]

theorem ptsOf_revWalk (h : K) (fb : Pt K) (lst : List (Cmd K × Option (Pt K)))
    (hcanon : ∀ p ∈ lst, p.1.canonical) :
    ∀ out, ptsOf h (revWalk fb lst out) = ptsOf h out ++ (emPts fb lst).map (Pt.flip h) := by
  induction lst with
  | nil => intro out; simp [revWalk, emPts]
  | cons p rest ih =>
    obtain ⟨c, ep⟩ := p
    intro out
    have hcc := hcanon (c, ep) (by simp)
    have hr : ∀ q ∈ rest, q.1.canonical := fun q hq => hcanon q (by simp [hq])
    cases c <;> simp only [Cmd.canonical] at hcc <;>
      simp [revWalk, emPts, Cmd.isSeg, ih hr, ptsOf_append, ptsOf, Pt.flip]

theorem mem_dropLast_cons {α : Type} (a : α) (l : List α) (x : α) (hx : x ∈ l.dropLast) :
    x ∈ (a :: l).dropLast := by
  cases l with
  | nil => cases hx
  | cons b bs =>
    rw [List.dropLast_cons₂]
    exact List.mem_cons_of_mem a hx

/-- Common step of `emPts_eq` for a segment command (`L`/`Q`/`C`). -/
theorem emPts_seg_step (fb : Pt K) (c : Cmd K) (rest : List (Cmd K × Option (Pt K)))
    (hseg : c.isSeg = true) (hM0 : c.isM = false) (e : Pt K) (he : epcan c = some e)
    (hconsr : ∀ q ∈ rest, q.2 = epcan q.1)
    (hcanonr : ∀ q ∈ rest, q.1.canonical)
    (hrec : emPts fb rest = (rest.filterMap Prod.snd).tail ++
      (if (rest.any fun p => p.1.isM) = false ∧ rest.filterMap Prod.snd ≠ [] then [fb]
        else [])) :
    emPts fb ((c, epcan c) :: rest) = (((c, epcan c) :: rest).filterMap Prod.snd).tail ++
      (if (((c, epcan c) :: rest).any fun p => p.1.isM) = false ∧
          ((c, epcan c) :: rest).filterMap Prod.snd ≠ [] then [fb]
        else []) := by
  rw [emPts_cons_seg _ _ _ _ hseg, hrec, findSome?_eq_head?_filterMap]
  have hfm : ((c, epcan c) :: rest).filterMap Prod.snd = e :: rest.filterMap Prod.snd := by
    simp [List.filterMap_cons, he]
  have hany : (((c, epcan c) :: rest).any fun p => p.1.isM) = (rest.any fun p => p.1.isM) := by
    simp [hM0]
  simp only [hfm, hany]
  cases hE : rest.filterMap Prod.snd with
  | nil =>
    have hnone : ∀ q ∈ rest, q.2 = none := List.filterMap_eq_nil_iff.mp hE
    have hnoM : (rest.any fun q => q.1.isM) = false := by
      rw [List.any_eq_false]
      intro q hq
      have h4 : epcan q.1 = none := (hconsr q hq).symm.trans (hnone q hq)
      have h5 := hcanonr q hq
      cases hq1 : q.1 <;> simp_all [Cmd.canonical]
    simp [hE, hnoM]
  | cons e0 E0 =>
    simp
    exact if_congr (by simp) rfl rfl

/-- The endpoints re-emitted by the reversal walk over a reversed canonical
pair list: all original endpoints shifted by one (each segment command is
retargeted to its predecessor's endpoint); when the subpath has no `M`, the
chronologically first segment command falls back to the first vertex. -/
theorem emPts_eq (fb : Pt K) (rl : List (Cmd K × Option (Pt K)))
    (hcons : ∀ p ∈ rl, p.2 = epcan p.1)
    (hcanon : ∀ p ∈ rl, p.1.canonical)
    (hM : ∀ p ∈ rl.dropLast, p.1.isM = false) :
    emPts fb rl = (rl.filterMap Prod.snd).tail ++
      (if (rl.any fun p => p.1.isM) = false ∧ rl.filterMap Prod.snd ≠ [] then [fb]
        else []) := by
  induction rl with
  | nil => simp [emPts]
  | cons p rest ih =>
    obtain ⟨c, ep⟩ := p
    have hep : ep = epcan c := hcons (c, ep) (by simp)
    have hcc : c.canonical := hcanon (c, ep) (by simp)
    have hconsr : ∀ q ∈ rest, q.2 = epcan q.1 := fun q hq => hcons q (by simp [hq])
    have hcanonr : ∀ q ∈ rest, q.1.canonical := fun q hq => hcanon q (by simp [hq])
    have hMr : ∀ q ∈ rest.dropLast, q.1.isM = false := fun q hq =>
      hM q (mem_dropLast_cons _ _ _ hq)
    have hrec := ih hconsr hcanonr hMr
    subst hep
    cases c with
    | Z =>
      rw [emPts_cons_nonseg _ _ _ _ (by simp), hrec]
      have hfm : ((Cmd.Z, epcan (Cmd.Z : Cmd K)) :: rest).filterMap Prod.snd =
          rest.filterMap Prod.snd := by
        simp [List.filterMap_cons]
      have hany : (((Cmd.Z, epcan (Cmd.Z : Cmd K)) :: rest).any fun p => p.1.isM) =
          (rest.any fun p => p.1.isM) := by
        simp
      simp only [hfm, hany]
    | M x y =>
      cases rest with
      | cons r rs =>
        exfalso
        have hmem : (Cmd.M x y, epcan (Cmd.M x y)) ∈
            ((Cmd.M x y, epcan (Cmd.M x y)) :: r :: rs).dropLast :=
          List.mem_cons_self _ _
        have := hM _ hmem
        simp at this
      | nil => simp [emPts]
    | L x y =>
      exact emPts_seg_step fb _ rest (by simp) (by simp) _ rfl hconsr hcanonr hrec
    | Q x1 y1 x y =>
      exact emPts_seg_step fb _ rest (by simp) (by simp) _ rfl hconsr hcanonr hrec
    | C x1 y1 x2 y2 x y =>
      exact emPts_seg_step fb _ rest (by simp) (by simp) _ rfl hconsr hcanonr hrec
    | H x => exact absurd hcc (by simp [Cmd.canonical])
    | V y => exact absurd hcc (by simp [Cmd.canonical])
    | S x2 y2 x y => exact absurd hcc (by simp [Cmd.canonical])
    | T x y => exact absurd hcc (by simp [Cmd.canonical])

theorem zip_self_map {α β : Type} (l : List α) (f : α → β) :
    l.zip (l.map f) = l.map fun a => (a, f a) := by
  induction l with
  | nil => rfl
  | cons a t ih => simp [ih]

theorem any_map_fn {α β : Type} (l : List α) (f : α → β) (p : β → Bool) :
    (l.map f).any p = l.any fun a => p (f a) := by
  induction l with
  | nil => rfl
  | cons a t ih => simp [ih]

/-- The flipped endpoint polygon of a reversed canonical subpath is the
reversed polygon of the original — with, for a subpath that never starts
with a move, one duplicate of the original first vertex appended. -/
theorem ptsOf_reverseSubpath (h : K) (sub : List (Cmd K)) (hsub : SubpathLike sub) :
    ptsOf h (reverseSubpath sub) = (ptsOf h sub).reverse ∨
    (∃ p, (ptsOf h sub).head? = some p ∧
      ptsOf h (reverseSubpath sub) = (ptsOf h sub).reverse ++ [p]) := by
  obtain ⟨hcan, htail⟩ := hsub
  have heps : epGo 0 0 sub = sub.map epcan := epGo_canonical sub hcan 0 0
  have hverts : (epGo 0 0 sub).filterMap id = sub.filterMap epcan := by
    rw [heps, List.filterMap_map]
    rfl
  have hpts : ptsOf h sub = (sub.filterMap epcan).map (Pt.flip h) := ptsOf_eq_filterMap h sub
  cases hEnil : sub.filterMap epcan with
  | nil =>
    left
    have hrs : reverseSubpath sub = sub := by
      simp only [reverseSubpath, hverts, hEnil]
      rfl
    rw [hrs, hpts, hEnil]
    rfl
  | cons e0 E' =>
    have hvne : sub.filterMap epcan ≠ [] := by rw [hEnil]; exact List.cons_ne_nil _ _
    set lv := (sub.filterMap epcan).getLast hvne with hlv
    have hheadv : ((epGo 0 0 sub).filterMap id).head? = some e0 := by
      rw [hverts, hEnil]; rfl
    have hlastv : ((epGo 0 0 sub).filterMap id).getLast? = some lv := by
      rw [hverts, List.getLast?_eq_getLast _ hvne]
    have hwalk : reverseSubpath sub =
        (if sub.any Cmd.isZ then
          revWalk e0 ((sub.zip (epGo 0 0 sub)).reverse) [Cmd.M lv.x lv.y] ++ [Cmd.Z]
        else revWalk e0 ((sub.zip (epGo 0 0 sub)).reverse) [Cmd.M lv.x lv.y]) := by
      rw [reverseSubpath]
      simp only [hheadv, hlastv]
    have hrl : (sub.zip (epGo 0 0 sub)).reverse =
        (sub.map fun c => (c, epcan c)).reverse := by
      rw [heps, zip_self_map]
    have hmemrl : ∀ p ∈ (sub.zip (epGo 0 0 sub)).reverse, p.2 = epcan p.1 ∧ p.1.canonical := by
      intro p hp
      rw [hrl, List.mem_reverse, List.mem_map] at hp
      obtain ⟨c, hc, rfl⟩ := hp
      exact ⟨rfl, hcan c hc⟩
    have hMrl : ∀ p ∈ ((sub.zip (epGo 0 0 sub)).reverse).dropLast, p.1.isM = false := by
      intro p hp
      rw [hrl, reverse_dropLast, List.mem_reverse, ← List.map_tail, List.mem_map] at hp
      obtain ⟨c, hc, rfl⟩ := hp
      exact htail c hc
    have hfm : ((sub.zip (epGo 0 0 sub)).reverse).filterMap Prod.snd =
        (sub.filterMap epcan).reverse := by
      rw [hrl, List.filterMap_reverse, List.filterMap_map]
      rfl
    have hany : (((sub.zip (epGo 0 0 sub)).reverse).any fun p => p.1.isM) =
        sub.any Cmd.isM := by
      rw [hrl, List.any_reverse, any_map_fn]
    have hem := emPts_eq e0 ((sub.zip (epGo 0 0 sub)).reverse)
      (fun p hp => (hmemrl p hp).1) (fun p hp => (hmemrl p hp).2) hMrl
    rw [hfm, hany] at hem
    have hptswalk : ptsOf h (reverseSubpath sub) =
        Pt.flip h lv :: (emPts e0 ((sub.zip (epGo 0 0 sub)).reverse)).map (Pt.flip h) := by
      rw [hwalk]
      have hcansnd : ∀ p ∈ (sub.zip (epGo 0 0 sub)).reverse, p.1.canonical :=
        fun p hp => (hmemrl p hp).2
      split
      · rw [ptsOf_append, ptsOf_revWalk h e0 _ hcansnd]
        simp [ptsOf, Pt.flip]
      · rw [ptsOf_revWalk h e0 _ hcansnd]
        simp [ptsOf, Pt.flip]
    have hrevE : (sub.filterMap epcan).reverse = lv :: ((sub.filterMap epcan).reverse).tail := by
      refine (List.cons_head?_tail ?_).symm
      rw [List.head?_reverse, List.getLast?_eq_getLast _ hvne]
      exact rfl
    cases hM : sub.any Cmd.isM with
    | true =>
      left
      rw [hptswalk, hem, hM]
      simp only [Bool.true_eq_false, false_and, if_false, List.append_nil]
      calc Pt.flip h lv :: ((sub.filterMap epcan).reverse.tail).map (Pt.flip h)
          = ((sub.filterMap epcan).reverse).map (Pt.flip h) := by
            conv_rhs => rw [hrevE]
            rfl
        _ = (ptsOf h sub).reverse := by rw [hpts, List.map_reverse]
    | false =>
      right
      refine ⟨Pt.flip h e0, ?_, ?_⟩
      · rw [hpts, hEnil]
        rfl
      · rw [hptswalk, hem, hM]
        rw [if_pos ⟨rfl, by rw [hEnil]; simp⟩]
        calc Pt.flip h lv :: ((sub.filterMap epcan).reverse.tail ++ [e0]).map (Pt.flip h)
            = (Pt.flip h lv :: ((sub.filterMap epcan).reverse.tail).map (Pt.flip h))
                ++ [Pt.flip h e0] := by simp
          _ = ((sub.filterMap epcan).reverse).map (Pt.flip h) ++ [Pt.flip h e0] := by
              conv_rhs => rw [hrevE]
              rfl
          _ = (ptsOf h sub).reverse ++ [Pt.flip h e0] := by rw [hpts, List.map_reverse]

/-- Helper shared by the winding development: `reverseSubpath` exactly negates
the signed font-space area of a canonical subpath. -/
theorem reverseSubpath_negates_area (h : K) (sub : List (Cmd K)) (hsub : SubpathLike sub) :
    getSignedAreaFontSpace h (reverseSubpath sub) = -getSignedAreaFontSpace h sub := by
  rcases ptsOf_reverseSubpath h sub hsub with hp | ⟨p, hhead, hp⟩
  · rw [getSignedAreaFontSpace, hp, shoelace_reverse, getSignedAreaFontSpace]
    ring
  · rw [getSignedAreaFontSpace, hp]
    have hne : ptsOf h sub ≠ [] := by
      intro hc
      rw [hc] at hhead
      cases hhead
    have hner : (ptsOf h sub).reverse ≠ [] := by simp [hne]
    have hgl : (ptsOf h sub).reverse.getLast hner = p := by
      have h2 : (ptsOf h sub).reverse.getLast? = some p := by
        rw [List.getLast?_reverse, hhead]
      rw [List.getLast?_eq_getLast _ hner] at h2
      exact Option.some.inj h2
    rw [← hgl, shoelace_concat_getLast _ hner, shoelace_reverse, getSignedAreaFontSpace]
    ring

/-- C9.  On a canonical subpath (only `M`/`L`/`Q`/`C`/`Z`, with a move only
at the head), `reverseSubpath` exactly negates the signed font-space area,
so reversal always flips an observed nonzero winding. -/
theorem c9_reverse_negates_area (h : K) (sub : List (Cmd K)) (hsub : SubpathLike sub) :
    getSignedAreaFontSpace h (reverseSubpath sub) = -getSignedAreaFontSpace h sub :=
  reverseSubpath_negates_area h sub hsub

/-- C9, witness: reversing the clockwise-in-design-space triangle
`M(0,0) L(0,1) L(1,1) Z` flips its font-space area from `1/2` to `-1/2`. -/
theorem c9_witness :
    getSignedAreaFontSpace (24 : ℚ) (reverseSubpath [Cmd.M 0 0, Cmd.L 0 1, Cmd.L 1 1, Cmd.Z]) =
      -getSignedAreaFontSpace (24 : ℚ) [Cmd.M 0 0, Cmd.L 0 1, Cmd.L 1 1, Cmd.Z] :=
  c9_reverse_negates_area 24 _ (by constructor <;> decide)

theorem canonGo_id_of_canonical (st : CState K) (l : List (Cmd K))
    (hc : ∀ c ∈ l, c.canonical) : canonGo st l = l := by
  induction l generalizing st with
  | nil => rfl
  | cons c rest ih =>
    have hcc := hc c (List.mem_cons_self c rest)
    have hrest : ∀ x ∈ rest, x.canonical := fun x hx => hc x (List.mem_cons_of_mem _ hx)
    cases c with
    | M x y => simp [canonGo, canonEmit, ih _ hrest]
    | L x y => simp [canonGo, canonEmit, ih _ hrest]
    | Q x1 y1 x y => simp [canonGo, canonEmit, ih _ hrest]
    | C x1 y1 x2 y2 x y => simp [canonGo, canonEmit, ih _ hrest]
    | Z => simp [canonGo, canonEmit, ih _ hrest]
    | H x => exact hcc.elim
    | V y => exact hcc.elim
    | S x2 y2 x y => exact hcc.elim
    | T x y => exact hcc.elim

theorem canonical_of_isSeg (c : Cmd K) (h : c.isSeg = true) : c.canonical := by
  cases c <;> simp_all [Cmd.isSeg, Cmd.canonical]

theorem isM_eq_false_of_isSeg (c : Cmd K) (h : c.isSeg = true) : c.isM = false := by
  cases c <;> simp_all [Cmd.isSeg]

theorem isZ_eq_false_of_isSeg (c : Cmd K) (h : c.isSeg = true) : c.isZ = false := by
  cases c <;> simp_all [Cmd.isSeg]

theorem endsWithZ_concat_Z (l : List (Cmd K)) : endsWithZ (l ++ [Cmd.Z]) = true := by
  simp [endsWithZ]

theorem any_isZ_of_endsWithZ (l : List (Cmd K)) (h : endsWithZ l = true) :
    l.any Cmd.isZ = true := by
  rw [endsWithZ] at h
  rcases hg : l.getLast? with _ | c
  · rw [hg] at h; cases h
  · rw [hg] at h
    cases c <;> simp_all [List.any_eq_true]
    exact ⟨Cmd.Z, List.mem_of_getLast?_eq_some hg, rfl⟩

theorem endsWithZ_eq_false_of_no_isZ (l : List (Cmd K)) (h : l.any Cmd.isZ = false) :
    endsWithZ l = false := by
  rw [endsWithZ]
  rcases hg : l.getLast? with _ | c
  · rfl
  · have hmem := List.mem_of_getLast?_eq_some hg
    have := List.any_eq_false.mp h c hmem
    cases c <;> simp_all [Cmd.isZ]

theorem startsWithM_append_of_ne (l s : List (Cmd K)) (h : l ≠ []) :
    startsWithM (l ++ s) = startsWithM l := by
  rcases l with _ | ⟨c, l⟩
  · exact absurd rfl h
  · rfl

theorem revWalk_skip_M (fb : Pt K) (x y : K) (ep : Option (Pt K))
    (rest : List (Cmd K × Option (Pt K))) (out : List (Cmd K)) :
    revWalk fb ((Cmd.M x y, ep) :: rest) out = revWalk fb rest out := rfl

theorem revWalk_skip_Z (fb : Pt K) (ep : Option (Pt K))
    (rest : List (Cmd K × Option (Pt K))) (out : List (Cmd K)) :
    revWalk fb ((Cmd.Z, ep) :: rest) out = revWalk fb rest out := rfl

theorem revWalk_skip_S (fb : Pt K) (x2 y2 x y : K) (ep : Option (Pt K))
    (rest : List (Cmd K × Option (Pt K))) (out : List (Cmd K)) :
    revWalk fb ((Cmd.S x2 y2 x y, ep) :: rest) out = revWalk fb rest out := rfl

theorem revWalk_skip_T (fb : Pt K) (x y : K) (ep : Option (Pt K))
    (rest : List (Cmd K × Option (Pt K))) (out : List (Cmd K)) :
    revWalk fb ((Cmd.T x y, ep) :: rest) out = revWalk fb rest out := rfl

theorem revWalk_step_L (fb : Pt K) (x y : K) (ep : Option (Pt K))
    (rest : List (Cmd K × Option (Pt K))) (out : List (Cmd K)) :
    revWalk fb ((Cmd.L x y, ep) :: rest) out =
      revWalk fb rest
        (out ++ [Cmd.L ((rest.findSome? Prod.snd).getD fb).x
          ((rest.findSome? Prod.snd).getD fb).y]) := rfl

theorem revWalk_step_H (fb : Pt K) (x : K) (ep : Option (Pt K))
    (rest : List (Cmd K × Option (Pt K))) (out : List (Cmd K)) :
    revWalk fb ((Cmd.H x, ep) :: rest) out =
      revWalk fb rest
        (out ++ [Cmd.L ((rest.findSome? Prod.snd).getD fb).x
          (outLastY out ((rest.findSome? Prod.snd).getD fb).y)]) := rfl

theorem revWalk_step_V (fb : Pt K) (y : K) (ep : Option (Pt K))
    (rest : List (Cmd K × Option (Pt K))) (out : List (Cmd K)) :
    revWalk fb ((Cmd.V y, ep) :: rest) out =
      revWalk fb rest
        (out ++ [Cmd.L (outLastX out ((rest.findSome? Prod.snd).getD fb).x)
          ((rest.findSome? Prod.snd).getD fb).y]) := rfl

theorem revWalk_step_Q (fb : Pt K) (x1 y1 x y : K) (ep : Option (Pt K))
    (rest : List (Cmd K × Option (Pt K))) (out : List (Cmd K)) :
    revWalk fb ((Cmd.Q x1 y1 x y, ep) :: rest) out =
      revWalk fb rest
        (out ++ [Cmd.Q x1 y1 ((rest.findSome? Prod.snd).getD fb).x
          ((rest.findSome? Prod.snd).getD fb).y]) := rfl

theorem revWalk_step_C (fb : Pt K) (x1 y1 x2 y2 x y : K) (ep : Option (Pt K))
    (rest : List (Cmd K × Option (Pt K))) (out : List (Cmd K)) :
    revWalk fb ((Cmd.C x1 y1 x2 y2 x y, ep) :: rest) out =
      revWalk fb rest
        (out ++ [Cmd.C x2 y2 x1 y1 ((rest.findSome? Prod.snd).getD fb).x
          ((rest.findSome? Prod.snd).getD fb).y]) := rfl

theorem revWalk_structure (fb : Pt K) (lst : List (Cmd K × Option (Pt K)))
    (out : List (Cmd K)) :
    ∃ s, revWalk fb lst out = out ++ s ∧ ∀ c ∈ s, c.isSeg = true := by
  induction lst generalizing out with
  | nil => exact ⟨[], by simp [revWalk]⟩
  | cons p rest ih =>
    obtain ⟨c, ep⟩ := p
    cases c with
    | M x y => obtain ⟨s, hs, hseg⟩ := ih out; exact ⟨s, hs, hseg⟩
    | Z => obtain ⟨s, hs, hseg⟩ := ih out; exact ⟨s, hs, hseg⟩
    | S x2 y2 x y => obtain ⟨s, hs, hseg⟩ := ih out; exact ⟨s, hs, hseg⟩
    | T x y => obtain ⟨s, hs, hseg⟩ := ih out; exact ⟨s, hs, hseg⟩
    | L x y =>
      obtain ⟨s, hs, hseg⟩ := ih (out ++ [Cmd.L ((rest.findSome? Prod.snd).getD fb).x ((rest.findSome? Prod.snd).getD fb).y])
      refine ⟨[Cmd.L ((rest.findSome? Prod.snd).getD fb).x ((rest.findSome? Prod.snd).getD fb).y] ++ s, ?_, ?_⟩
      · rw [revWalk_step_L, hs, List.append_assoc]
      · intro c hc
        rcases List.mem_append.mp hc with hc | hc
        · rcases List.mem_singleton.mp hc with rfl; rfl
        · exact hseg c hc
    | H x =>
      obtain ⟨s, hs, hseg⟩ := ih (out ++ [Cmd.L ((rest.findSome? Prod.snd).getD fb).x (outLastY out ((rest.findSome? Prod.snd).getD fb).y)])
      refine ⟨[Cmd.L ((rest.findSome? Prod.snd).getD fb).x (outLastY out ((rest.findSome? Prod.snd).getD fb).y)] ++ s, ?_, ?_⟩
      · rw [revWalk_step_H, hs, List.append_assoc]
      · intro c hc
        rcases List.mem_append.mp hc with hc | hc
        · rcases List.mem_singleton.mp hc with rfl; rfl
        · exact hseg c hc
    | V y =>
      obtain ⟨s, hs, hseg⟩ := ih (out ++ [Cmd.L (outLastX out ((rest.findSome? Prod.snd).getD fb).x) ((rest.findSome? Prod.snd).getD fb).y])
      refine ⟨[Cmd.L (outLastX out ((rest.findSome? Prod.snd).getD fb).x) ((rest.findSome? Prod.snd).getD fb).y] ++ s, ?_, ?_⟩
      · rw [revWalk_step_V, hs, List.append_assoc]
      · intro c hc
        rcases List.mem_append.mp hc with hc | hc
        · rcases List.mem_singleton.mp hc with rfl; rfl
        · exact hseg c hc
    | Q x1 y1 x y =>
      obtain ⟨s, hs, hseg⟩ := ih (out ++ [Cmd.Q x1 y1 ((rest.findSome? Prod.snd).getD fb).x ((rest.findSome? Prod.snd).getD fb).y])
      refine ⟨[Cmd.Q x1 y1 ((rest.findSome? Prod.snd).getD fb).x ((rest.findSome? Prod.snd).getD fb).y] ++ s, ?_, ?_⟩
      · rw [revWalk_step_Q, hs, List.append_assoc]
      · intro c hc
        rcases List.mem_append.mp hc with hc | hc
        · rcases List.mem_singleton.mp hc with rfl; rfl
        · exact hseg c hc
    | C x1 y1 x2 y2 x y =>
      obtain ⟨s, hs, hseg⟩ := ih (out ++ [Cmd.C x2 y2 x1 y1 ((rest.findSome? Prod.snd).getD fb).x ((rest.findSome? Prod.snd).getD fb).y])
      refine ⟨[Cmd.C x2 y2 x1 y1 ((rest.findSome? Prod.snd).getD fb).x ((rest.findSome? Prod.snd).getD fb).y] ++ s, ?_, ?_⟩
      · rw [revWalk_step_C, hs, List.append_assoc]
      · intro c hc
        rcases List.mem_append.mp hc with hc | hc
        · rcases List.mem_singleton.mp hc with rfl; rfl
        · exact hseg c hc

theorem reverseSubpath_cases (sub : List (Cmd K)) :
    (∃ lv s, (∀ c ∈ s, c.isSeg = true) ∧
      reverseSubpath sub =
        Cmd.M (Pt.x lv) (Pt.y lv) ::
          (s ++ if sub.any Cmd.isZ = true then [Cmd.Z] else [])) ∨
    reverseSubpath sub = sub := by
  rcases hv : (epGo 0 0 sub).filterMap id with _ | ⟨v0, vs⟩
  · right
    simp only [reverseSubpath, hv]
    rfl
  · left
    have hne : (v0 :: vs : List (Pt K)) ≠ [] := by simp
    have hl : ((v0 :: vs : List (Pt K))).getLast? = some ((v0 :: vs).getLast hne) :=
      List.getLast?_eq_getLast _ hne
    obtain ⟨s, hs, hseg⟩ := revWalk_structure v0 ((sub.zip (epGo 0 0 sub)).reverse)
      [Cmd.M ((v0 :: vs).getLast hne).x ((v0 :: vs).getLast hne).y]
    refine ⟨(v0 :: vs).getLast hne, s, hseg, ?_⟩
    simp only [reverseSubpath, hv, List.head?_cons, hl]
    rw [hs]
    split
    · simp
    · simp

theorem reverseSubpath_startsWithM (sub : List (Cmd K)) (h : startsWithM sub = true) :
    startsWithM (reverseSubpath sub) = true := by
  rcases reverseSubpath_cases sub with ⟨lv, s, _, he⟩ | he
  · rw [he]; rfl
  · rw [he]; exact h

theorem reverseSubpath_endsWithZ (sub : List (Cmd K)) (h : endsWithZ sub = true) :
    endsWithZ (reverseSubpath sub) = true := by
  rcases reverseSubpath_cases sub with ⟨lv, s, _, he⟩ | he
  · have hz : sub.any Cmd.isZ = true := any_isZ_of_endsWithZ sub h
    rw [he]
    simp only [hz, if_pos]
    rw [show Cmd.M lv.x lv.y :: (s ++ [Cmd.Z]) = (Cmd.M lv.x lv.y :: s) ++ [Cmd.Z] from rfl]
    exact endsWithZ_concat_Z _
  · rw [he]; exact h

theorem reverseSubpath_WFBlock (sub : List (Cmd K)) (hwf : WFBlock sub) :
    WFBlock (reverseSubpath sub) := by
  rcases reverseSubpath_cases sub with ⟨lv, s, hseg, he⟩ | he
  · by_cases hz : sub.any Cmd.isZ = true
    · rw [if_pos hz] at he
      rw [he]
      refine ⟨by simp, ?_, ?_⟩
      · intro c hc
        rw [show Cmd.M lv.x lv.y :: (s ++ [Cmd.Z]) = (Cmd.M lv.x lv.y :: s) ++ [Cmd.Z]
          from rfl, List.dropLast_concat] at hc
        rcases List.mem_cons.mp hc with rfl | hc
        · rfl
        · exact isZ_eq_false_of_isSeg c (hseg c hc)
      · intro c hc
        rcases List.mem_append.mp hc with hc | hc
        · exact isM_eq_false_of_isSeg c (hseg c hc)
        · rcases List.mem_singleton.mp hc with rfl; rfl
    · rw [if_neg hz] at he
      rw [List.append_nil] at he
      rw [he]
      refine ⟨by simp, ?_, ?_⟩
      · intro c hc
        have hc2 := List.dropLast_subset _ hc
        rcases List.mem_cons.mp hc2 with rfl | hc2
        · rfl
        · exact isZ_eq_false_of_isSeg c (hseg c hc2)
      · intro c hc
        exact isM_eq_false_of_isSeg c (hseg c hc)
  · rw [he]; exact hwf

theorem reverseSubpath_all_canonical (sub : List (Cmd K))
    (hc : ∀ c ∈ sub, c.canonical) : ∀ c ∈ reverseSubpath sub, c.canonical := by
  rcases reverseSubpath_cases sub with ⟨lv, s, hseg, he⟩ | he
  · rw [he]
    intro c hcm
    rcases List.mem_cons.mp hcm with rfl | hcm
    · trivial
    · rcases List.mem_append.mp hcm with hcm | hcm
      · exact canonical_of_isSeg c (hseg c hcm)
      · split at hcm
        · rcases List.mem_singleton.mp hcm with rfl; trivial
        · cases hcm
  · rw [he]; exact hc

theorem normalizeOne_def (h : K) (b : Bool) (idx : ℕ) (sub : List (Cmd K)) :
    normalizeOne h b idx sub =
      if b = true ∧ idx = 0 then
        if getSignedAreaFontSpace h sub < 0 then sub else reverseSubpath sub
      else
        if getSignedAreaFontSpace h sub < 0 then reverseSubpath sub else sub := rfl

theorem normalizeOne_eq_or (h : K) (b : Bool) (idx : ℕ) (sub : List (Cmd K)) :
    normalizeOne h b idx sub = sub ∨ normalizeOne h b idx sub = reverseSubpath sub := by
  rw [normalizeOne_def]
  split
  · split
    · exact Or.inl rfl
    · exact Or.inr rfl
  · split
    · exact Or.inr rfl
    · exact Or.inl rfl

theorem normalizeOne_WFBlock (h : K) (b : Bool) (idx : ℕ) (sub : List (Cmd K))
    (hwf : WFBlock sub) : WFBlock (normalizeOne h b idx sub) := by
  rcases normalizeOne_eq_or h b idx sub with he | he <;> rw [he]
  · exact hwf
  · exact reverseSubpath_WFBlock sub hwf

theorem normalizeOne_all_canonical (h : K) (b : Bool) (idx : ℕ) (sub : List (Cmd K))
    (hc : ∀ c ∈ sub, c.canonical) : ∀ c ∈ normalizeOne h b idx sub, c.canonical := by
  rcases normalizeOne_eq_or h b idx sub with he | he <;> rw [he]
  · exact hc
  · exact reverseSubpath_all_canonical sub hc

theorem normalizeOne_startsWithM (h : K) (b : Bool) (idx : ℕ) (sub : List (Cmd K))
    (hm : startsWithM sub = true) : startsWithM (normalizeOne h b idx sub) = true := by
  rcases normalizeOne_eq_or h b idx sub with he | he <;> rw [he]
  · exact hm
  · exact reverseSubpath_startsWithM sub hm

theorem normalizeOne_endsWithZ (h : K) (b : Bool) (idx : ℕ) (sub : List (Cmd K))
    (hz : endsWithZ sub = true) : endsWithZ (normalizeOne h b idx sub) = true := by
  rcases normalizeOne_eq_or h b idx sub with he | he <;> rw [he]
  · exact hz
  · exact reverseSubpath_endsWithZ sub hz

theorem area_normalizeOne (h : K) (b : Bool) (idx : ℕ) (sub : List (Cmd K))
    (hsub : SubpathLike sub) (hnz : getSignedAreaFontSpace h sub ≠ 0) :
    getSignedAreaFontSpace h (normalizeOne h b idx sub) < 0 ↔ b = true ∧ idx = 0 := by
  have hrev := reverseSubpath_negates_area h sub hsub
  rw [normalizeOne_def]
  by_cases hb : b = true ∧ idx = 0
  · rw [if_pos hb]
    by_cases ha : getSignedAreaFontSpace h sub < 0
    · rw [if_pos ha]
      simp [hb, ha]
    · rw [if_neg ha, hrev]
      have : 0 < getSignedAreaFontSpace h sub :=
        lt_of_le_of_ne (not_lt.mp ha) (Ne.symm hnz)
      simp [hb]
      linarith
  · rw [if_neg hb]
    by_cases ha : getSignedAreaFontSpace h sub < 0
    · rw [if_pos ha, hrev]
      simp [hb]
      linarith
    · rw [if_neg ha]
      simp [hb]
      exact not_lt.mp ha

theorem normalizeOne_idem (h : K) (b : Bool) (idx : ℕ) (sub : List (Cmd K))
    (hsub : SubpathLike sub) (hnz : getSignedAreaFontSpace h sub ≠ 0) :
    normalizeOne h b idx (normalizeOne h b idx sub) = normalizeOne h b idx sub := by
  have hcond := area_normalizeOne h b idx sub hsub hnz
  rw [normalizeOne_def h b idx (normalizeOne h b idx sub)]
  by_cases hb : b = true ∧ idx = 0
  · rw [if_pos hb, if_pos (hcond.mpr hb)]
  · rw [if_neg hb, if_neg ?_]
    intro ha
    exact hb (hcond.mp ha)

theorem normLoop_eq_flatten (h : K) (b : Bool) (idx : ℕ) (blocks : List (List (Cmd K))) :
    normLoop h b idx blocks = (normBlocks h b idx blocks).flatten := by
  induction blocks generalizing idx with
  | nil => rfl
  | cons blk rest ih => simp [normLoop, normBlocks, ih]

theorem normBlocks_getElem (h : K) (b : Bool) (i j : ℕ) (blocks : List (List (Cmd K))) :
    (normBlocks h b i blocks)[j]? = (blocks[j]?).map (normalizeOne h b (i + j)) := by
  induction blocks generalizing i j with
  | nil => simp [normBlocks]
  | cons blk rest ih =>
    cases j with
    | zero => simp [normBlocks]
    | succ j =>
      simp only [normBlocks, List.getElem?_cons_succ, ih (i + 1) j]
      rw [Nat.add_assoc, Nat.add_comm 1 j]

theorem normBlocks_WF (h : K) (b : Bool) (i : ℕ) (blocks : List (List (Cmd K)))
    (hwf : ∀ blk ∈ blocks, WFBlock blk ∧ ∀ c ∈ blk, c.canonical) :
    ∀ blk ∈ normBlocks h b i blocks, WFBlock blk ∧ ∀ c ∈ blk, c.canonical := by
  induction blocks generalizing i with
  | nil => intro blk hb; cases hb
  | cons b0 rest ih =>
    intro blk hb
    rcases List.mem_cons.mp hb with rfl | hb
    · obtain ⟨hw, hc⟩ := hwf b0 (List.mem_cons_self b0 rest)
      exact ⟨normalizeOne_WFBlock h b i b0 hw, normalizeOne_all_canonical h b i b0 hc⟩
    · exact ih (i + 1) (fun x hx => hwf x (List.mem_cons_of_mem _ hx)) blk hb

theorem normBlocks_chain (h : K) (b : Bool) (i : ℕ) (blocks : List (List (Cmd K)))
    (hchain : ChainOK blocks) : ChainOK (normBlocks h b i blocks) := by
  induction blocks generalizing i with
  | nil => trivial
  | cons b0 rest ih =>
    cases rest with
    | nil => trivial
    | cons b1 rest2 =>
      obtain ⟨hlink, hrest⟩ := hchain
      refine ⟨?_, ih (i + 1) hrest⟩
      rcases hlink with hz | hm
      · exact Or.inl (normalizeOne_endsWithZ h b i b0 hz)
      · exact Or.inr (normalizeOne_startsWithM h b (i + 1) b1 hm)

theorem normBlocks_idem (h : K) (b : Bool) (i : ℕ) (blocks : List (List (Cmd K)))
    (hblk : ∀ blk ∈ blocks, SubpathLike blk ∧ getSignedAreaFontSpace h blk ≠ 0) :
    normBlocks h b i (normBlocks h b i blocks) = normBlocks h b i blocks := by
  induction blocks generalizing i with
  | nil => rfl
  | cons b0 rest ih =>
    obtain ⟨hs, hnz⟩ := hblk b0 (List.mem_cons_self b0 rest)
    simp only [normBlocks]
    rw [normalizeOne_idem h b i b0 hs hnz,
      ih (i + 1) (fun x hx => hblk x (List.mem_cons_of_mem _ hx))]

theorem splitLoop_nil (parts : List (List (Cmd K))) (cur : List (Cmd K)) :
    splitLoop [] parts cur = if cur = [] then parts else parts ++ [cur] := rfl

theorem splitLoop_Z (rest : List (Cmd K)) (parts : List (List (Cmd K))) (cur : List (Cmd K)) :
    splitLoop (Cmd.Z :: rest) parts cur = splitLoop rest (parts ++ [cur ++ [Cmd.Z]]) [] := by
  rw [splitLoop]
  simp [Cmd.isM, Cmd.isZ]

theorem splitLoop_noflush (c : Cmd K) (rest : List (Cmd K)) (parts : List (List (Cmd K)))
    (cur : List (Cmd K)) (hM : c.isM = false) (hZ : c.isZ = false) :
    splitLoop (c :: rest) parts cur = splitLoop rest parts (cur ++ [c]) := by
  rw [splitLoop]
  simp [hM, hZ]

theorem splitLoop_M_nocur (x y : K) (rest : List (Cmd K)) (parts : List (List (Cmd K))) :
    splitLoop (Cmd.M x y :: rest) parts [] = splitLoop rest parts [Cmd.M x y] := by
  rw [splitLoop]
  simp [Cmd.isM, Cmd.isZ]

theorem splitLoop_M_flush (x y : K) (rest : List (Cmd K)) (parts : List (List (Cmd K)))
    (cur : List (Cmd K)) (hcur : cur ≠ []) (hz : endsWithZ cur = false) :
    splitLoop (Cmd.M x y :: rest) parts cur = splitLoop rest (parts ++ [cur]) [Cmd.M x y] := by
  rw [splitLoop]
  simp [Cmd.isM, Cmd.isZ, hcur, hz]

theorem ChainOK_append (p q : List (List (Cmd K))) (hp : ChainOK p) (hq : ChainOK q)
    (hlink : ∀ lp, p.getLast? = some lp → ∀ hd, q.head? = some hd →
      endsWithZ lp = true ∨ startsWithM hd = true) :
    ChainOK (p ++ q) := by
  induction p with
  | nil => exact hq
  | cons b0 rest ih =>
    cases rest with
    | nil =>
      cases q with
      | nil => trivial
      | cons q0 q' =>
        exact ⟨hlink b0 rfl q0 rfl, hq⟩
    | cons b1 rest2 =>
      obtain ⟨hl, hrest⟩ := hp
      refine ⟨hl, ih hrest ?_⟩
      intro lp hlp hd hhd
      exact hlink lp (by rw [List.getLast?_cons_cons]; exact hlp) hd hhd

theorem cmd_shape (c : Cmd K) :
    c = Cmd.Z ∨ (∃ x y, c = Cmd.M x y) ∨ (c.isM = false ∧ c.isZ = false) := by
  cases c with
  | M x y => exact Or.inr (Or.inl ⟨x, y, rfl⟩)
  | Z => exact Or.inl rfl
  | L x y => exact Or.inr (Or.inr ⟨rfl, rfl⟩)
  | H x => exact Or.inr (Or.inr ⟨rfl, rfl⟩)
  | V y => exact Or.inr (Or.inr ⟨rfl, rfl⟩)
  | Q x1 y1 x y => exact Or.inr (Or.inr ⟨rfl, rfl⟩)
  | C x1 y1 x2 y2 x y => exact Or.inr (Or.inr ⟨rfl, rfl⟩)
  | S x2 y2 x y => exact Or.inr (Or.inr ⟨rfl, rfl⟩)
  | T x y => exact Or.inr (Or.inr ⟨rfl, rfl⟩)

theorem splitLoop_inv (P : Cmd K → Prop) (l : List (Cmd K)) :
    ∀ (parts : List (List (Cmd K))) (cur : List (Cmd K)),
    (∀ c ∈ l, P c) →
    (∀ blk ∈ parts, WFBlock blk ∧ ∀ c ∈ blk, P c) →
    ChainOK parts →
    (∀ c ∈ cur, P c) →
    cur.any Cmd.isZ = false →
    (∀ c ∈ cur.tail, c.isM = false) →
    (∀ lp, parts.getLast? = some lp → endsWithZ lp = true ∨ startsWithM cur = true) →
    (∀ blk ∈ splitLoop l parts cur, WFBlock blk ∧ ∀ c ∈ blk, P c) ∧
    ChainOK (splitLoop l parts cur) := by
  induction l with
  | nil =>
    intro parts cur _ hparts hchain hcurP hcurZ hcurM hlink
    rw [splitLoop_nil]
    by_cases hc : cur = []
    · rw [if_pos hc]; exact ⟨hparts, hchain⟩
    · rw [if_neg hc]
      constructor
      · intro blk hb
        rcases List.mem_append.mp hb with hb | hb
        · exact hparts blk hb
        · rcases List.mem_singleton.mp hb with rfl
          refine ⟨⟨hc, ?_, hcurM⟩, hcurP⟩
          intro d hcd
          exact Bool.eq_false_iff.mpr (List.any_eq_false.mp hcurZ d (List.dropLast_subset _ hcd))
      · refine ChainOK_append parts [cur] hchain trivial ?_
        intro lp hlp hd hhd
        obtain rfl := Option.some.inj hhd
        exact hlink lp hlp
  | cons c rest ih =>
    intro parts cur hl hparts hchain hcurP hcurZ hcurM hlink
    have hPc : P c := hl c (List.mem_cons_self _ _)
    have hlrest : ∀ x ∈ rest, P x := fun x hx => hl x (List.mem_cons_of_mem _ hx)
    rcases cmd_shape c with rfl | ⟨x, y, rfl⟩ | ⟨hM0, hZ0⟩
    · rw [splitLoop_Z]
      refine ih (parts ++ [cur ++ [Cmd.Z]]) [] hlrest ?_ ?_ (by intro d hd; cases hd)
        rfl (by intro d hd; cases hd) ?_
      · intro blk hb
        rcases List.mem_append.mp hb with hb | hb
        · exact hparts blk hb
        · rcases List.mem_singleton.mp hb with rfl
          refine ⟨⟨by simp, ?_, ?_⟩, ?_⟩
          · intro d hcd
            rw [List.dropLast_concat] at hcd
            exact Bool.eq_false_iff.mpr (List.any_eq_false.mp hcurZ d hcd)
          · intro d hcd
            rcases cur with _ | ⟨c0, cur2⟩
            · cases hcd
            · rw [List.cons_append, List.tail_cons] at hcd
              rcases List.mem_append.mp hcd with hcd | hcd
              · exact hcurM d hcd
              · rcases List.mem_singleton.mp hcd with rfl; rfl
          · intro d hcd
            rcases List.mem_append.mp hcd with hcd | hcd
            · exact hcurP d hcd
            · rcases List.mem_singleton.mp hcd with rfl; exact hPc
      · refine ChainOK_append parts [cur ++ [Cmd.Z]] hchain trivial ?_
        intro lp hlp hd hhd
        obtain rfl := Option.some.inj hhd
        rcases hlink lp hlp with hz | hm
        · exact Or.inl hz
        · have hcne : cur ≠ [] := by
            intro hcc; rw [hcc] at hm; cases hm
          rw [startsWithM_append_of_ne cur [Cmd.Z] hcne]
          exact Or.inr hm
      · intro lp hlp
        rw [List.getLast?_concat] at hlp
        obtain rfl := (Option.some.inj hlp).symm
        exact Or.inl (endsWithZ_concat_Z cur)
    · by_cases hc : cur = []
      · subst hc
        rw [splitLoop_M_nocur]
        refine ih parts [Cmd.M x y] hlrest hparts hchain ?_ rfl
          (by intro d hd; cases hd) ?_
        · intro d hd
          rcases List.mem_singleton.mp hd with rfl; exact hPc
        · intro lp hlp
          exact Or.inr rfl
      · have hez : endsWithZ cur = false := endsWithZ_eq_false_of_no_isZ cur hcurZ
        rw [splitLoop_M_flush x y rest parts cur hc hez]
        refine ih (parts ++ [cur]) [Cmd.M x y] hlrest ?_ ?_ ?_ rfl
          (by intro d hd; cases hd) ?_
        · intro blk hb
          rcases List.mem_append.mp hb with hb | hb
          · exact hparts blk hb
          · rcases List.mem_singleton.mp hb with rfl
            refine ⟨⟨hc, ?_, hcurM⟩, hcurP⟩
            intro d hcd
            exact Bool.eq_false_iff.mpr (List.any_eq_false.mp hcurZ d (List.dropLast_subset _ hcd))
        · refine ChainOK_append parts [cur] hchain trivial ?_
          intro lp hlp hd hhd
          obtain rfl := Option.some.inj hhd
          exact hlink lp hlp
        · intro d hd
          rcases List.mem_singleton.mp hd with rfl; exact hPc
        · intro lp hlp
          exact Or.inr rfl
    · rw [splitLoop_noflush c rest parts cur hM0 hZ0]
      refine ih parts (cur ++ [c]) hlrest hparts hchain ?_ ?_ ?_ ?_
      · intro d hd
        rcases List.mem_append.mp hd with hd | hd
        · exact hcurP d hd
        · rcases List.mem_singleton.mp hd with rfl; exact hPc
      · rw [List.any_append, hcurZ]
        simp [hZ0]
      · intro d hd
        rcases cur with _ | ⟨c0, cur2⟩
        · rw [List.nil_append, List.tail_cons] at hd
          cases hd
        · rw [List.cons_append, List.tail_cons] at hd
          rcases List.mem_append.mp hd with hd | hd
          · exact hcurM d hd
          · rcases List.mem_singleton.mp hd with rfl; exact hM0
      · intro lp hlp
        rcases hlink lp hlp with hz | hm
        · exact Or.inl hz
        · have hcne : cur ≠ [] := by
            intro hcc; rw [hcc] at hm; cases hm
          rw [startsWithM_append_of_ne cur [c] hcne]
          exact Or.inr hm

theorem splitSubpaths_inv (l : List (Cmd K)) (hc : ∀ c ∈ l, c.canonical) :
    (∀ blk ∈ splitSubpaths l, WFBlock blk ∧ ∀ c ∈ blk, c.canonical) ∧
    ChainOK (splitSubpaths l) := by
  refine splitLoop_inv Cmd.canonical l [] [] hc
    (by intro blk hb; cases hb) trivial (by intro d hd; cases hd) rfl
    (by intro d hd; cases hd) (by intro lp hlp; cases hlp)

theorem splitLoop_run (core : List (Cmd K)) (rest : List (Cmd K))
    (parts : List (List (Cmd K))) (cur : List (Cmd K))
    (hZ : ∀ c ∈ core, c.isZ = false) (hM : ∀ c ∈ core, c.isM = false) :
    splitLoop (core ++ rest) parts cur = splitLoop rest parts (cur ++ core) := by
  induction core generalizing cur with
  | nil => rw [List.nil_append, List.append_nil]
  | cons c core2 ih =>
    rw [List.cons_append, splitLoop_noflush c (core2 ++ rest) parts cur
      (hM c (List.mem_cons_self _ _)) (hZ c (List.mem_cons_self _ _))]
    rw [ih (cur ++ [c]) (fun d hd => hZ d (List.mem_cons_of_mem _ hd))
      (fun d hd => hM d (List.mem_cons_of_mem _ hd))]
    rw [List.append_assoc]
    rfl

theorem WFBlock_no_isZ (blk : List (Cmd K)) (hwf : WFBlock blk)
    (hez : endsWithZ blk = false) : blk.any Cmd.isZ = false := by
  obtain ⟨hne, hdz, _⟩ := hwf
  rw [List.any_eq_false]
  intro c hc
  rcases List.mem_iff_get.mp hc with ⟨i, rfl⟩
  by_cases hlast : (i : ℕ) = blk.length - 1
  · intro hz
    have hgl : blk.getLast hne = blk.get i := by
      rw [List.getLast_eq_getElem, List.get_eq_getElem]
      congr 1
      omega
    have : blk.getLast? = some (blk.get i) := by
      rw [List.getLast?_eq_getLast _ hne, hgl]
    rw [endsWithZ, this] at hez
    have hzz : blk.get i = Cmd.Z := by
      cases hgi : blk.get i <;> rw [hgi] at hz <;> first | rfl | cases hz
    rw [hzz] at hez
    cases hez
  · intro hz
    have hi : (i : ℕ) < blk.length - 1 := by
      have := i.isLt
      omega
    have hmem : blk.get i ∈ blk.dropLast := by
      rw [List.get_eq_getElem, ← List.getElem_dropLast blk i ?_]
      · exact List.getElem_mem _
      · rw [List.length_dropLast]
        exact hi
    have := hdz _ hmem
    rw [hz] at this
    cases this

theorem splitLoop_nocur (c : Cmd K) (rest : List (Cmd K)) (parts : List (List (Cmd K)))
    (hZ : c.isZ = false) :
    splitLoop (c :: rest) parts [] = splitLoop rest parts [c] := by
  rw [splitLoop]
  simp [hZ]

theorem splitLoop_consume_Z (blk rest : List (Cmd K)) (parts : List (List (Cmd K)))
    (hwf : WFBlock blk) (hez : endsWithZ blk = true) :
    splitLoop (blk ++ rest) parts [] = splitLoop rest (parts ++ [blk]) [] := by
  obtain ⟨hne, hdz, htm⟩ := hwf
  have hlast : blk.getLast hne = Cmd.Z := by
    rw [endsWithZ, List.getLast?_eq_getLast _ hne] at hez
    cases hgi : blk.getLast hne <;> rw [hgi] at hez <;> first | rfl | cases hez
  have hdecomp : blk = blk.dropLast ++ [Cmd.Z] := by
    conv_lhs => rw [← List.dropLast_concat_getLast hne]
    rw [hlast]
  rcases hcore : blk.dropLast with _ | ⟨c0, core2⟩
  · have hblk : blk = [Cmd.Z] := by rw [hdecomp, hcore]; rfl
    rw [hblk]
    rw [show ([Cmd.Z] ++ rest : List (Cmd K)) = Cmd.Z :: rest from rfl]
    rw [splitLoop_Z]
    rfl
  · have hblk : blk = c0 :: (core2 ++ [Cmd.Z]) := by rw [hdecomp, hcore]; rfl
    have hc0Z : c0.isZ = false := hdz c0 (by rw [hcore]; exact List.mem_cons_self _ _)
    have htail : blk.tail = core2 ++ [Cmd.Z] := by rw [hblk]; rfl
    have hZcore2 : ∀ c ∈ core2, c.isZ = false := by
      intro d hd
      exact hdz d (by rw [hcore]; exact List.mem_cons_of_mem _ hd)
    have hMcore2 : ∀ c ∈ core2, c.isM = false := by
      intro d hd
      exact htm d (by rw [htail]; exact List.mem_append_left _ hd)
    conv_lhs => rw [hblk]
    rw [List.cons_append, splitLoop_nocur c0 _ parts hc0Z, List.append_assoc]
    rw [splitLoop_run core2 ([Cmd.Z] ++ rest) parts [c0] hZcore2 hMcore2]
    rw [show ([Cmd.Z] ++ rest : List (Cmd K)) = Cmd.Z :: rest from rfl, splitLoop_Z]
    congr 1
    rw [hblk]
    simp

theorem splitLoop_consume_noZ (blk s : List (Cmd K)) (parts : List (List (Cmd K)))
    (hwf : WFBlock blk) (hez : endsWithZ blk = false)
    (hs : s = [] ∨ ∃ m, s.head? = some m ∧ m.isM = true) :
    splitLoop (blk ++ s) parts [] = splitLoop s (parts ++ [blk]) [] := by
  have hnoZ : blk.any Cmd.isZ = false := WFBlock_no_isZ blk hwf hez
  obtain ⟨hne, hdz, htm⟩ := hwf
  rcases hb : blk with _ | ⟨c0, core⟩
  · exact absurd hb hne
  · subst hb
    have hc0Z : c0.isZ = false :=
      Bool.eq_false_iff.mpr (List.any_eq_false.mp hnoZ c0 (List.mem_cons_self _ _))
    have hZcore : ∀ c ∈ core, c.isZ = false := fun d hd =>
      Bool.eq_false_iff.mpr (List.any_eq_false.mp hnoZ d (List.mem_cons_of_mem _ hd))
    have hMcore : ∀ c ∈ core, c.isM = false := fun d hd => htm d hd
    rw [List.cons_append, splitLoop_nocur c0 _ parts hc0Z,
      splitLoop_run core s parts [c0] hZcore hMcore,
      show ([c0] ++ core : List (Cmd K)) = c0 :: core from rfl]
    rcases hs with rfl | ⟨m, hm, hmM⟩
    · rw [splitLoop_nil, splitLoop_nil]
      simp
    · rcases s with _ | ⟨s0, s2⟩
      · cases hm
      · have hs0 : s0 = m := Option.some.inj hm
        subst hs0
        obtain ⟨x, y, rfl⟩ : ∃ x y, s0 = Cmd.M x y := by
          cases s0 with
          | M x y => exact ⟨x, y, rfl⟩
          | L x y => simp at hmM
          | H x => simp at hmM
          | V y => simp at hmM
          | Q x1 y1 x y => simp at hmM
          | C x1 y1 x2 y2 x y => simp at hmM
          | S x2 y2 x y => simp at hmM
          | T x y => simp at hmM
          | Z => simp at hmM
        rw [splitLoop_M_flush x y s2 parts (c0 :: core) (by simp)
          (endsWithZ_eq_false_of_no_isZ _ hnoZ)]
        rw [splitLoop_M_nocur]

theorem splitLoop_resplit (blocks : List (List (Cmd K))) (parts : List (List (Cmd K)))
    (hwf : ∀ blk ∈ blocks, WFBlock blk) (hchain : ChainOK blocks) :
    splitLoop blocks.flatten parts [] = parts ++ blocks := by
  induction blocks generalizing parts with
  | nil =>
    rw [List.flatten_nil, splitLoop_nil]
    simp
  | cons blk rest ih =>
    have hwblk := hwf blk (List.mem_cons_self _ _)
    have hwrest : ∀ b ∈ rest, WFBlock b := fun b hb => hwf b (List.mem_cons_of_mem _ hb)
    have hchainrest : ChainOK rest := by
      rcases rest with _ | ⟨b1, r2⟩
      · trivial
      · exact hchain.2
    rw [List.flatten_cons]
    by_cases hez : endsWithZ blk = true
    · rw [splitLoop_consume_Z blk rest.flatten parts hwblk hez,
        ih (parts ++ [blk]) hwrest hchainrest, List.append_assoc]
      rfl
    · have hs : rest.flatten = [] ∨ ∃ m, rest.flatten.head? = some m ∧ m.isM = true := by
        rcases rest with _ | ⟨b1, r2⟩
        · left; rfl
        · right
          obtain ⟨hlink, _⟩ := hchain
          rcases hlink with hz | hm
          · exact absurd hz hez
          · have hb1ne : b1 ≠ [] := (hwrest b1 (List.mem_cons_self _ _)).1
            rcases hb1 : b1 with _ | ⟨m, b1t⟩
            · exact absurd hb1 hb1ne
            · refine ⟨m, ?_, ?_⟩
              · rfl
              · rw [hb1] at hm
                exact hm
      rw [splitLoop_consume_noZ blk rest.flatten parts hwblk (Bool.eq_false_iff.mpr hez) hs,
        ih (parts ++ [blk]) hwrest hchainrest, List.append_assoc]
      rfl

theorem splitSubpaths_resplit (blocks : List (List (Cmd K)))
    (hwf : ∀ blk ∈ blocks, WFBlock blk) (hchain : ChainOK blocks) :
    splitSubpaths blocks.flatten = blocks := by
  rw [splitSubpaths, splitLoop_resplit blocks [] hwf hchain, List.nil_append]

theorem splitSubpaths_normalized (h : K) (cmds : List (Cmd K)) (b : Bool) :
    splitSubpaths (getNormalizedWindingForFont h cmds b) =
      normBlocks h b 0 (splitSubpaths (getOpenTypeCommands cmds)) := by
  have hcanon : ∀ c ∈ getOpenTypeCommands cmds, c.canonical :=
    canonGo_canonical (⟨0, 0, none, none, none, none⟩ : CState K) cmds
  obtain ⟨hwfall, hchain⟩ := splitSubpaths_inv (getOpenTypeCommands cmds) hcanon
  rw [getNormalizedWindingForFont, normLoop_eq_flatten]
  exact splitSubpaths_resplit _ (fun blk hb => (normBlocks_WF h b 0 _ hwfall blk hb).1)
    (normBlocks_chain h b 0 _ hchain)

/-- C1, amended.  The `idx`-th output subpath is exactly the per-index
normalization of the `idx`-th canonical input subpath (reversed iff its
winding mismatches, unchanged otherwise); when the input subpath's signed
font-space area is nonzero, the output subpath is clockwise (negative
font-space area) exactly when `outerShouldBeCW` is set and `idx = 0` — so
with the flag set the outer contour comes out clockwise and every hole
counter-clockwise, while with the flag cleared every subpath (holes
included) comes out counter-clockwise, not in the winding opposite to the
caller-specified target as the original claim stated. -/
theorem c1_amended (h : K) (cmds : List (Cmd K)) (b : Bool) (idx : ℕ) (sub : List (Cmd K))
    (hsub : (splitSubpaths (getOpenTypeCommands cmds))[idx]? = some sub) :
    (splitSubpaths (getNormalizedWindingForFont h cmds b))[idx]? =
      some (normalizeOne h b idx sub) ∧
    (getSignedAreaFontSpace h sub ≠ 0 →
      (getSignedAreaFontSpace h (normalizeOne h b idx sub) < 0 ↔ b = true ∧ idx = 0)) := by
  have hcanon : ∀ c ∈ getOpenTypeCommands cmds, c.canonical :=
    canonGo_canonical (⟨0, 0, none, none, none, none⟩ : CState K) cmds
  obtain ⟨hwfall, _⟩ := splitSubpaths_inv (getOpenTypeCommands cmds) hcanon
  constructor
  · rw [splitSubpaths_normalized, normBlocks_getElem, hsub, Nat.zero_add]
    rfl
  · intro hnz
    have hmem : sub ∈ splitSubpaths (getOpenTypeCommands cmds) := List.getElem?_mem hsub
    obtain ⟨⟨_, _, htm⟩, hcan⟩ := hwfall sub hmem
    exact area_normalizeOne h b idx sub ⟨hcan, htm⟩ hnz

/-- C1, counterexample to the original claim: on a path of two
counter-clockwise triangles with `outerShouldBeCW = false`, both output
subpaths have positive font-space area `1/2` (counter-clockwise).  The
claim demands the hole (index 1) take the winding opposite to the
caller-specified target — clockwise here — but the code targets
counter-clockwise for every subpath when the flag is cleared. -/
theorem c1_counterexample :
    ((splitSubpaths (getNormalizedWindingForFont (24 : ℚ)
        [Cmd.M 0 0, Cmd.L 0 1, Cmd.L 1 1, Cmd.Z, Cmd.M 2 2, Cmd.L 2 3, Cmd.L 3 3, Cmd.Z]
        false)).map (getSignedAreaFontSpace 24) = [1/2, 1/2]) ∧ (0 : ℚ) < 1/2 := by
  constructor
  · norm_num [getNormalizedWindingForFont, normLoop, normalizeOne, splitSubpaths, splitLoop,
      getOpenTypeCommands, canonGo, canonEmit, canonStep, endsWithZ, Cmd.isM, Cmd.isZ,
      getSignedAreaFontSpace, shoelace, ptsOf, epGo, cross, Pt.flip, List.rotate,
      reverseSubpath, revWalk, outLastX, outLastY, Cmd.xOf, Cmd.yOf]
  · norm_num

/-- C1, witness for the amended theorem at a two-triangle path with the
flag cleared: the hole subpath (index 1) is emitted by `normalizeOne` and,
its area `1/2` being nonzero, its normalized winding is counter-clockwise
(`¬ area < 0`), matching `b = true ∧ idx = 0` being false. -/
theorem c1_witness :
    ((splitSubpaths (getNormalizedWindingForFont (24 : ℚ)
        [Cmd.M 0 0, Cmd.L 0 1, Cmd.L 1 1, Cmd.Z, Cmd.M 2 2, Cmd.L 2 3, Cmd.L 3 3, Cmd.Z]
        false))[1]? =
      some (normalizeOne 24 false 1 [Cmd.M 2 2, Cmd.L 2 3, Cmd.L 3 3, Cmd.Z])) ∧
    (getSignedAreaFontSpace (24 : ℚ) [Cmd.M 2 2, Cmd.L 2 3, Cmd.L 3 3, Cmd.Z] ≠ 0 →
      (getSignedAreaFontSpace (24 : ℚ)
          (normalizeOne 24 false 1 [Cmd.M 2 2, Cmd.L 2 3, Cmd.L 3 3, Cmd.Z]) < 0 ↔
        false = true ∧ 1 = 0)) :=
  c1_amended 24
    [Cmd.M 0 0, Cmd.L 0 1, Cmd.L 1 1, Cmd.Z, Cmd.M 2 2, Cmd.L 2 3, Cmd.L 3 3, Cmd.Z]
    false 1 [Cmd.M 2 2, Cmd.L 2 3, Cmd.L 3 3, Cmd.Z] (by decide)

/-- C3, amended.  Winding normalization is idempotent on every path all of
whose canonical subpaths have nonzero signed font-space area: re-running
`getNormalizedWindingForFont` with the same flag returns the output
unchanged.  (A zero-area subpath is re-reversed on every pass when its
required winding is clockwise, so the restriction is necessary.) -/
theorem c3_amended (h : K) (cmds : List (Cmd K)) (b : Bool)
    (hnz : ∀ sub ∈ splitSubpaths (getOpenTypeCommands cmds),
      getSignedAreaFontSpace h sub ≠ 0) :
    getNormalizedWindingForFont h (getNormalizedWindingForFont h cmds b) b =
      getNormalizedWindingForFont h cmds b := by
  have hcanon : ∀ c ∈ getOpenTypeCommands cmds, c.canonical :=
    canonGo_canonical (⟨0, 0, none, none, none, none⟩ : CState K) cmds
  obtain ⟨hwfall, hchain⟩ := splitSubpaths_inv (getOpenTypeCommands cmds) hcanon
  have hnbWF := normBlocks_WF h b 0 _ hwfall
  have h1 : getNormalizedWindingForFont h cmds b =
      (normBlocks h b 0 (splitSubpaths (getOpenTypeCommands cmds))).flatten := by
    rw [getNormalizedWindingForFont, normLoop_eq_flatten]
  have hcanon2 : ∀ c ∈ getNormalizedWindingForFont h cmds b, c.canonical := by
    intro c hc
    rw [h1, List.mem_flatten] at hc
    obtain ⟨blk, hblk, hcblk⟩ := hc
    exact (hnbWF blk hblk).2 c hcblk
  have h2 : getOpenTypeCommands (getNormalizedWindingForFont h cmds b) =
      getNormalizedWindingForFont h cmds b :=
    canonGo_id_of_canonical _ _ hcanon2
  have hcond : ∀ blk ∈ splitSubpaths (getOpenTypeCommands cmds),
      SubpathLike blk ∧ getSignedAreaFontSpace h blk ≠ 0 := by
    intro blk hblk
    obtain ⟨⟨_, _, htm⟩, hcan⟩ := hwfall blk hblk
    exact ⟨⟨hcan, htm⟩, hnz blk hblk⟩
  have h4 : getNormalizedWindingForFont h (getNormalizedWindingForFont h cmds b) b =
      normLoop h b 0
        (splitSubpaths (getOpenTypeCommands (getNormalizedWindingForFont h cmds b))) := rfl
  rw [h4, h2, splitSubpaths_normalized, normLoop_eq_flatten,
    normBlocks_idem h b 0 _ hcond]
  exact h1.symm

/-- C3, counterexample to the original claim: the degenerate (zero-area)
triangle `M(0,0) L(1,1) Z` is reversed on every pass when the outer contour
must be clockwise, so normalizing the already-normalized commands flips
them back instead of returning them byte-identically. -/
theorem c3_counterexample :
    getNormalizedWindingForFont (24 : ℚ)
        (getNormalizedWindingForFont 24 [Cmd.M 0 0, Cmd.L 1 1, Cmd.Z] true) true ≠
      getNormalizedWindingForFont 24 [Cmd.M 0 0, Cmd.L 1 1, Cmd.Z] true := by
  norm_num [getNormalizedWindingForFont, normLoop, normalizeOne, splitSubpaths, splitLoop,
    getOpenTypeCommands, canonGo, canonEmit, canonStep, endsWithZ, Cmd.isM, Cmd.isZ,
    getSignedAreaFontSpace, shoelace, ptsOf, epGo, cross, Pt.flip, List.rotate,
    reverseSubpath, revWalk, outLastX, outLastY, Cmd.xOf, Cmd.yOf]

/-- C3, witness for the amended theorem: the counter-clockwise triangle
`M(0,0) L(0,1) L(1,1) Z` has font-space area `1/2 ≠ 0`, and normalizing
its normalized commands again returns them unchanged. -/
theorem c3_witness :
    getNormalizedWindingForFont (24 : ℚ)
        (getNormalizedWindingForFont 24 [Cmd.M 0 0, Cmd.L 0 1, Cmd.L 1 1, Cmd.Z] true) true =
      getNormalizedWindingForFont 24 [Cmd.M 0 0, Cmd.L 0 1, Cmd.L 1 1, Cmd.Z] true := by
  refine c3_amended 24 [Cmd.M 0 0, Cmd.L 0 1, Cmd.L 1 1, Cmd.Z] true ?_
  intro sub hsub
  have hsplit : splitSubpaths (getOpenTypeCommands
      [Cmd.M (0:ℚ) 0, Cmd.L 0 1, Cmd.L 1 1, Cmd.Z]) =
      [[Cmd.M (0:ℚ) 0, Cmd.L 0 1, Cmd.L 1 1, Cmd.Z]] := by decide
  rw [hsplit, List.mem_singleton] at hsub
  subst hsub
  norm_num [getSignedAreaFontSpace, shoelace, ptsOf, epGo, cross, Pt.flip, List.rotate]

end IconFont
